import Mathlib

/-!
Verification of the signal-based reactivity and change-detection core of this
repository, as described in the design document (`spec.md`) and exercised by
the tests under `packages/core/rxjs-interop/test/pending_until_event_spec.ts`.

The reactive core itself (signal graph, computed caching, effect scheduler,
pending-task registry, and the `pendingUntilEvent` bridging adapter) is not
part of the source excerpt — only its tests, documentation, and peripheral
consumers are.  Following the spec, each component is therefore modelled here
as an executable shallow embedding, faithful to the spec's description of the
data model and algorithms (sections 3, 4.1–4.4) and consistent with the
behaviour asserted by the in-repository tests.
-/

namespace AngularReactivity

/-! ## Pending task registry (spec §4.4)

`Modelled from the spec:` the `PendingTasks` registry is not in the source
excerpt.  Per the spec, `registerPendingTask` / `unregisterPendingTask` form
an opaque handle pair; the registry exposes a boolean "has pending tasks"
signal; double-unregister of a handle is a reported usage error, not a silent
no-op, and must not corrupt the count (clamped at zero). -/

structure Registry where
  /-- outstanding task handles, in registration order -/
  tasks : List Nat
  /-- next fresh handle id -/
  nextId : Nat
  /-- number of reported usage errors (double unregister) -/
  errors : Nat
  /-- ghost counter: total number of registrations ever performed -/
  regCount : Nat
deriving DecidableEq, Repr

def Registry.init : Registry := ⟨[], 0, 0, 0⟩

/-- `registerPendingTask`: mint a fresh handle and add it to the outstanding
set; returns the handle. -/
def Registry.add (r : Registry) : Nat × Registry :=
  (r.nextId, ⟨r.tasks ++ [r.nextId], r.nextId + 1, r.errors, r.regCount + 1⟩)

/-- `unregisterPendingTask`: remove the handle if outstanding; otherwise
report a usage error and leave the outstanding set untouched (the count is
thereby clamped at zero — an absent handle never drives it negative). -/
def Registry.remove (r : Registry) (id : Nat) : Registry :=
  if id ∈ r.tasks then
    { r with tasks := r.tasks.erase id }
  else
    { r with errors := r.errors + 1 }

/-- the "has pending tasks" boolean signal -/
def Registry.hasPending (r : Registry) : Bool := !r.tasks.isEmpty

theorem Registry.remove_mem (r : Registry) (id : Nat) (h : id ∈ r.tasks) :
    r.remove id = { r with tasks := r.tasks.erase id } := by
  simp [Registry.remove, h]

theorem Registry.remove_not_mem (r : Registry) (id : Nat) (h : id ∉ r.tasks) :
    r.remove id = { r with errors := r.errors + 1 } := by
  simp [Registry.remove, h]

/-- C8: for any pending-task handle `id` outstanding in a registry whose
handle list is duplicate-free, a second `unregisterPendingTask` on the same
handle reports exactly one usage error (it is not a silent no-op), leaves the
outstanding-task set unchanged by the second call (count clamped, never
driven below zero), and does not disturb any other outstanding handle. -/
theorem pending_task_double_unregister (r : Registry) (id : Nat)
    (hmem : id ∈ r.tasks) (hnd : r.tasks.Nodup) :
    ((r.remove id).remove id).errors = (r.remove id).errors + 1 ∧
    ((r.remove id).remove id).tasks = (r.remove id).tasks ∧
    (∀ id', id' ≠ id → (id' ∈ ((r.remove id).remove id).tasks ↔ id' ∈ r.tasks)) := by
  have h1 : (r.remove id).tasks = r.tasks.erase id := by
    rw [Registry.remove_mem r id hmem]
  have hnot : id ∉ (r.remove id).tasks := by
    rw [h1]
    exact (List.Nodup.mem_erase_iff hnd).not.mpr (by simp)
  have h2 : (r.remove id).remove id = { r.remove id with errors := (r.remove id).errors + 1 } :=
    Registry.remove_not_mem _ _ hnot
  refine ⟨by rw [h2], by rw [h2], ?_⟩
  intro id' hne
  rw [h2]
  show id' ∈ (r.remove id).tasks ↔ id' ∈ r.tasks
  rw [h1, List.Nodup.mem_erase_iff hnd]
  simp [hne]

/-- C8 witness -/
theorem pending_task_double_unregister_witness :
    let r : Registry := ⟨[3, 7], 8, 0, 2⟩
    ((r.remove 3).remove 3).errors = (r.remove 3).errors + 1 ∧
    ((r.remove 3).remove 3).tasks = (r.remove 3).tasks ∧
    (∀ id', id' ≠ 3 → (id' ∈ ((r.remove 3).remove 3).tasks ↔ id' ∈ r.tasks)) :=
  pending_task_double_unregister ⟨[3, 7], 8, 0, 2⟩ 3 (by decide) (by decide)

/-! ## The `pendingUntilEvent` bridging adapter (spec §4.4)

`Modelled from the spec:` the operator source
(`packages/core/rxjs-interop/src/pending_until_event.ts`) is not in the
excerpt; only its test file is.  Per the spec, the adapter converts
"subscribed, not yet received first event" into a pending task registered on
subscribe and unregistered on first emission, completion, error, or
unsubscribe — whichever comes first; later emissions do not re-register, and
each independent subscription gets its own bookkeeping.  Callback ordering
(downstream delivery before task removal; an upstream finalizer running
before the adapter's own teardown; a downstream finalizer running after it)
follows the in-repository tests. -/

/-- per-subscription state of the adapter -/
structure SubSt where
  subscribed : Bool
  /-- the adapter's one-shot guard: true once the pending task was removed -/
  cleanedUp : Bool
  /-- the inner subscription has been torn down -/
  closed : Bool
  /-- the pending-task handle minted at subscribe time -/
  taskId : Nat
  /-- values delivered downstream -/
  received : List Int
  gotComplete : Bool
  gotError : Bool
deriving DecidableEq, Repr

/-- a key that was never subscribed: nothing to clean, nothing open -/
def SubSt.dflt : SubSt := ⟨false, true, true, 0, [], false, false⟩

/-- observable callback executions, in order, with the value of the
"has pending tasks" signal sampled where a test observes it -/
inductive TEntry where
  | nextD (k : Nat) (v : Int)
  | completeCb (k : Nat)
  | errorCb (k : Nat)
  | upFin (k : Nat) (pending : Bool)
  | downFin (k : Nat) (pending : Bool)
  | taskRemoved (k : Nat)
deriving DecidableEq, Repr

structure AdSt where
  reg : Registry
  subIds : List Nat
  subs : Nat → SubSt
  trace : List TEntry

def AdSt.init : AdSt := ⟨Registry.init, [], fun _ => SubSt.dflt, []⟩

def AdSt.active (ad : AdSt) (k : Nat) : Bool :=
  (ad.subs k).subscribed && !(ad.subs k).closed

/-- the adapter's `cleanupTask`: unregister the pending task, at most once per
subscription -/
def cleanupTask (ad : AdSt) (k : Nat) : AdSt :=
  let s := ad.subs k
  if s.cleanedUp then ad
  else
    { ad with
      reg := ad.reg.remove s.taskId
      subs := fun k' => if k' = k then { s with cleanedUp := true } else ad.subs k'
      trace := ad.trace ++ [.taskRemoved k] }

/-- tear down the inner subscription -/
def closeSub (ad : AdSt) (k : Nat) : AdSt :=
  { ad with
    subs := fun k' => if k' = k then { ad.subs k with closed := true } else ad.subs k' }

/-- append observable callback entries to the trace -/
def pushT (ad : AdSt) (es : List TEntry) : AdSt :=
  { ad with trace := ad.trace ++ es }

/-- injector destruction for one subscription: the registered `onDestroy`
callback removes the pending task and tears down the inner subscription -/
def destroyOne (ad : AdSt) (k : Nat) : AdSt :=
  closeSub (cleanupTask ad k) k

/-- events the adapter reacts to -/
inductive AdEv where
  | subscribe (k : Nat)
  | next (k : Nat) (v : Int)
  | complete (k : Nat)
  | error (k : Nat)
  | unsubscribe (k : Nat)
  | destroyInj
deriving DecidableEq, Repr

/-- One adapter step.  `subscribe` registers exactly one pending task and
initialises the per-subscription state.  `next` delivers the value downstream
and then removes the pending task (first time only).  `complete`/`error`
deliver the terminal callback downstream, then remove the task, then run the
finalizers.  `unsubscribe` runs the upstream finalizer (registered on the
inner subscription before the adapter's own teardown) first, then removes the
task, then runs the downstream finalizer.  `destroyInj` runs every
subscription's `onDestroy` callback. -/
def adStep (ad : AdSt) : AdEv → AdSt
  | .subscribe k =>
    if (ad.subs k).subscribed then ad
    else
      let (id, reg') := ad.reg.add
      { ad with
        reg := reg'
        subIds := ad.subIds ++ [k]
        subs := fun k' => if k' = k then ⟨true, false, false, id, [], false, false⟩ else ad.subs k' }
  | .next k v =>
    if ad.active k then
      let s := ad.subs k
      let ad₁ := { ad with
        subs := fun k' => if k' = k then { s with received := s.received ++ [v] } else ad.subs k'
        trace := ad.trace ++ [.nextD k v] }
      cleanupTask ad₁ k
    else ad
  | .complete k =>
    if ad.active k then
      let s := ad.subs k
      let ad₁ := { ad with
        subs := fun k' => if k' = k then { s with gotComplete := true } else ad.subs k'
        trace := ad.trace ++ [.completeCb k] }
      let ad₂ := cleanupTask ad₁ k
      let ad₃ := pushT ad₂ [.upFin k ad₂.reg.hasPending, .downFin k ad₂.reg.hasPending]
      closeSub ad₃ k
    else ad
  | .error k =>
    if ad.active k then
      let s := ad.subs k
      let ad₁ := { ad with
        subs := fun k' => if k' = k then { s with gotError := true } else ad.subs k'
        trace := ad.trace ++ [.errorCb k] }
      let ad₂ := cleanupTask ad₁ k
      let ad₃ := pushT ad₂ [.upFin k ad₂.reg.hasPending, .downFin k ad₂.reg.hasPending]
      closeSub ad₃ k
    else ad
  | .unsubscribe k =>
    if ad.active k then
      let ad₁ := pushT ad [.upFin k ad.reg.hasPending]
      let ad₂ := cleanupTask ad₁ k
      let ad₃ := pushT ad₂ [.downFin k ad₂.reg.hasPending]
      closeSub ad₃ k
    else ad
  | .destroyInj => ad.subIds.foldl destroyOne ad

def adRun (ad : AdSt) (evs : List AdEv) : AdSt := evs.foldl adStep ad

/-- does this event belong to subscription `k` (injector destruction affects
every subscription)? -/
def AdEv.forSub (k : Nat) : AdEv → Bool
  | .subscribe _ => false
  | .next k' _ => k' = k
  | .complete k' => k' = k
  | .error k' => k' = k
  | .unsubscribe k' => k' = k
  | .destroyInj => true

def AdEv.isSubscribe : AdEv → Bool
  | .subscribe _ => true
  | _ => false

/-- number of times subscription `k`'s pending task was removed -/
def countTR (k : Nat) (tr : List TEntry) : Nat :=
  tr.countP (fun e => e = .taskRemoved k)

/-- Well-formedness of an adapter state: subscription keys are unique and
subscribed; the outstanding pending tasks are exactly the handles of the
not-yet-cleaned subscriptions, one each; handles are below the registry's
fresh counter. -/
def WFAd (ad : AdSt) : Prop :=
  ad.reg.tasks.Nodup ∧
  ad.subIds.Nodup ∧
  (∀ k ∈ ad.subIds, (ad.subs k).subscribed = true) ∧
  (∀ k ∈ ad.subIds, (ad.subs k).cleanedUp = false → (ad.subs k).taskId ∈ ad.reg.tasks) ∧
  (∀ t ∈ ad.reg.tasks, ∃ k ∈ ad.subIds, (ad.subs k).cleanedUp = false ∧ (ad.subs k).taskId = t) ∧
  (∀ k ∈ ad.subIds, ∀ k' ∈ ad.subIds, k ≠ k' → (ad.subs k).cleanedUp = false →
    (ad.subs k').cleanedUp = false → (ad.subs k).taskId ≠ (ad.subs k').taskId) ∧
  (∀ k ∈ ad.subIds, (ad.subs k).taskId < ad.reg.nextId) ∧
  (∀ t ∈ ad.reg.tasks, t < ad.reg.nextId) ∧
  (∀ k, (ad.subs k).subscribed = true → k ∈ ad.subIds) ∧
  (∀ k, (ad.subs k).subscribed = false → (ad.subs k).cleanedUp = true)

theorem WFAd_init : WFAd AdSt.init := by
  constructor <;> simp [AdSt.init, Registry.init, SubSt.dflt]

/-- transport of well-formedness along a state change that leaves the
registry, the key list, and every subscription's core fields untouched -/
theorem WFAd_congr (ad ad' : AdSt) (hreg : ad'.reg = ad.reg) (hids : ad'.subIds = ad.subIds)
    (hsub : ∀ k, (ad'.subs k).subscribed = (ad.subs k).subscribed)
    (hcl : ∀ k, (ad'.subs k).cleanedUp = (ad.subs k).cleanedUp)
    (htk : ∀ k, (ad'.subs k).taskId = (ad.subs k).taskId)
    (h : WFAd ad) : WFAd ad' := by
  unfold WFAd at h ⊢
  simp only [hreg, hids, hsub, hcl, htk]
  exact h

theorem cleanupTask_cleaned {ad : AdSt} {k : Nat} (h : (ad.subs k).cleanedUp = true) :
    cleanupTask ad k = ad := by
  simp [cleanupTask, h]

theorem cleanupTask_reg {ad : AdSt} {k : Nat} (h : (ad.subs k).cleanedUp = false) :
    (cleanupTask ad k).reg = ad.reg.remove (ad.subs k).taskId := by
  simp [cleanupTask, h]

theorem cleanupTask_subIds (ad : AdSt) (k : Nat) :
    (cleanupTask ad k).subIds = ad.subIds := by
  by_cases h : (ad.subs k).cleanedUp = true
  · rw [cleanupTask_cleaned h]
  · simp [cleanupTask, h]

theorem cleanupTask_subs_self {ad : AdSt} {k : Nat} (h : (ad.subs k).cleanedUp = false) :
    (cleanupTask ad k).subs k = { ad.subs k with cleanedUp := true } := by
  simp [cleanupTask, h]

theorem cleanupTask_subs_ne (ad : AdSt) {k k' : Nat} (hne : k' ≠ k) :
    (cleanupTask ad k).subs k' = ad.subs k' := by
  by_cases h : (ad.subs k).cleanedUp = true
  · rw [cleanupTask_cleaned h]
  · simp [cleanupTask, h, hne]

theorem cleanupTask_trace {ad : AdSt} {k : Nat} (h : (ad.subs k).cleanedUp = false) :
    (cleanupTask ad k).trace = ad.trace ++ [.taskRemoved k] := by
  simp [cleanupTask, h]

theorem closeSub_reg (ad : AdSt) (k : Nat) : (closeSub ad k).reg = ad.reg := rfl

theorem closeSub_subIds (ad : AdSt) (k : Nat) : (closeSub ad k).subIds = ad.subIds := rfl

theorem closeSub_trace (ad : AdSt) (k : Nat) : (closeSub ad k).trace = ad.trace := rfl

theorem closeSub_subs_self (ad : AdSt) (k : Nat) :
    (closeSub ad k).subs k = { ad.subs k with closed := true } := by
  simp [closeSub]

theorem closeSub_subs_ne (ad : AdSt) {k k' : Nat} (hne : k' ≠ k) :
    (closeSub ad k).subs k' = ad.subs k' := by
  simp [closeSub, hne]

theorem WFAd_cleanupTask (ad : AdSt) (k : Nat) (h : WFAd ad) : WFAd (cleanupTask ad k) := by
  by_cases hcl : (ad.subs k).cleanedUp = true
  · rw [cleanupTask_cleaned hcl]; exact h
  · replace hcl : (ad.subs k).cleanedUp = false := by
      cases hx : (ad.subs k).cleanedUp
      · rfl
      · exact absurd hx hcl
    obtain ⟨h1, h2, h3, h4, h5, h6, h7, h8, h9, h10⟩ := h
    have hsub : (ad.subs k).subscribed = true := by
      cases hx : (ad.subs k).subscribed
      · rw [h10 k hx] at hcl; cases hcl
      · rfl
    have hk : k ∈ ad.subIds := h9 k hsub
    have ht₀ : (ad.subs k).taskId ∈ ad.reg.tasks := h4 k hk hcl
    have hreg : (cleanupTask ad k).reg =
        { ad.reg with tasks := ad.reg.tasks.erase (ad.subs k).taskId } := by
      rw [cleanupTask_reg hcl, Registry.remove_mem _ _ ht₀]
    refine ⟨?_, ?_, ?_, ?_, ?_, ?_, ?_, ?_, ?_, ?_⟩
    · rw [hreg]; exact h1.erase _
    · rw [cleanupTask_subIds]; exact h2
    · intro k' hk'
      rw [cleanupTask_subIds] at hk'
      by_cases he : k' = k
      · subst he; rw [cleanupTask_subs_self hcl]; exact h3 k' hk'
      · rw [cleanupTask_subs_ne ad he]; exact h3 k' hk'
    · intro k' hk' hcl'
      rw [cleanupTask_subIds] at hk'
      by_cases he : k' = k
      · subst he; rw [cleanupTask_subs_self hcl] at hcl'; simp at hcl'
      · rw [cleanupTask_subs_ne ad he] at hcl' ⊢
        rw [hreg]
        have hne : (ad.subs k').taskId ≠ (ad.subs k).taskId :=
          h6 k' hk' k hk he hcl' hcl
        exact (h1.mem_erase_iff.mpr ⟨hne, h4 k' hk' hcl'⟩)
    · intro t ht
      rw [hreg] at ht
      obtain ⟨htne, htm⟩ := h1.mem_erase_iff.mp ht
      obtain ⟨k', hk', hcl', htk'⟩ := h5 t htm
      have he : k' ≠ k := by
        intro hx; subst hx; exact htne htk'.symm
      refine ⟨k', by rw [cleanupTask_subIds]; exact hk', ?_, ?_⟩
      · rw [cleanupTask_subs_ne ad he]; exact hcl'
      · rw [cleanupTask_subs_ne ad he]; exact htk'
    · intro a ha b hb hne hca hcb
      rw [cleanupTask_subIds] at ha hb
      by_cases hea : a = k
      · subst hea; rw [cleanupTask_subs_self hcl] at hca; simp at hca
      · by_cases heb : b = k
        · subst heb; rw [cleanupTask_subs_self hcl] at hcb; simp at hcb
        · rw [cleanupTask_subs_ne ad hea] at hca ⊢
          rw [cleanupTask_subs_ne ad heb] at hcb ⊢
          exact h6 a ha b hb hne hca hcb
    · intro k' hk'
      rw [cleanupTask_subIds] at hk'
      rw [hreg]
      by_cases he : k' = k
      · subst he; rw [cleanupTask_subs_self hcl]; exact h7 k' hk'
      · rw [cleanupTask_subs_ne ad he]; exact h7 k' hk'
    · intro t ht
      rw [hreg] at ht ⊢
      exact h8 t (List.mem_of_mem_erase ht)
    · intro k' hs'
      rw [cleanupTask_subIds]
      by_cases he : k' = k
      · subst he; exact hk
      · rw [cleanupTask_subs_ne ad he] at hs'; exact h9 k' hs'
    · intro k' hs'
      by_cases he : k' = k
      · subst he; rw [cleanupTask_subs_self hcl]
      · rw [cleanupTask_subs_ne ad he] at hs' ⊢; exact h10 k' hs'

theorem WFAd_closeSub (ad : AdSt) (k : Nat) (h : WFAd ad) : WFAd (closeSub ad k) := by
  refine WFAd_congr ad (closeSub ad k) rfl rfl ?_ ?_ ?_ h <;> intro k' <;> by_cases he : k' = k
  · subst he; rw [closeSub_subs_self]
  · rw [closeSub_subs_ne ad he]
  · subst he; rw [closeSub_subs_self]
  · rw [closeSub_subs_ne ad he]
  · subst he; rw [closeSub_subs_self]
  · rw [closeSub_subs_ne ad he]

theorem WFAd_destroyOne (ad : AdSt) (k : Nat) (h : WFAd ad) : WFAd (destroyOne ad k) :=
  WFAd_closeSub _ _ (WFAd_cleanupTask _ _ h)

theorem WFAd_pushT (ad : AdSt) (es : List TEntry) (h : WFAd ad) : WFAd (pushT ad es) :=
  WFAd_congr ad (pushT ad es) rfl rfl (fun _ => rfl) (fun _ => rfl) (fun _ => rfl) h

theorem WFAd_subscribe (ad : AdSt) (k : Nat) (h : WFAd ad) :
    WFAd (adStep ad (.subscribe k)) := by
  by_cases hs : (ad.subs k).subscribed = true
  · simp [adStep, hs]; exact h
  · replace hs : (ad.subs k).subscribed = false := by
      cases hx : (ad.subs k).subscribed
      · rfl
      · exact absurd hx hs
    obtain ⟨h1, h2, h3, h4, h5, h6, h7, h8, h9, h10⟩ := h
    have hk : k ∉ ad.subIds := fun hm => by rw [h3 k hm] at hs; cases hs
    have hn : ad.reg.nextId ∉ ad.reg.tasks := fun hm => lt_irrefl _ (h8 _ hm)
    simp only [adStep, hs, Bool.false_eq_true, if_false, Registry.add]
    refine ⟨?_, ?_, ?_, ?_, ?_, ?_, ?_, ?_, ?_, ?_⟩
    · simp only [List.nodup_append, List.nodup_singleton]
      exact ⟨h1, by simp, by simp [List.disjoint_singleton, hn]⟩
    · simp only [List.nodup_append, List.nodup_singleton]
      exact ⟨h2, by simp, by simp [List.disjoint_singleton, hk]⟩
    · intro k' hk'
      by_cases he : k' = k
      · subst he; simp
      · simp only [List.mem_append, List.mem_singleton] at hk'
        rcases hk' with hk' | hk'
        · simp only [he, if_false]; exact h3 k' hk'
        · exact absurd hk' he
    · intro k' hk' hcl'
      by_cases he : k' = k
      · subst he; simp
      · simp only [he, if_false] at hcl' ⊢
        simp only [List.mem_append, List.mem_singleton] at hk'
        rcases hk' with hk' | hk'
        · exact List.mem_append_left _ (h4 k' hk' hcl')
        · exact absurd hk' he
    · intro t ht
      simp only [List.mem_append, List.mem_singleton] at ht
      rcases ht with ht | ht
      · obtain ⟨k', hk', hcl', htk'⟩ := h5 t ht
        have he : k' ≠ k := fun hx => hk (hx ▸ hk')
        exact ⟨k', List.mem_append_left _ hk', by simp [he, hcl', htk']⟩
      · exact ⟨k, by simp, by simp [ht]⟩
    · intro a ha b hb hne hca hcb
      simp only [List.mem_append, List.mem_singleton] at ha hb
      by_cases hea : a = k
      · subst hea
        rcases hb with hb | hb
        · have heb : b ≠ a := fun hx => hk (hx ▸ hb)
          simp only [heb, if_false, if_pos rfl] at hcb ⊢
          exact fun hx => lt_irrefl _ (hx ▸ h7 b hb)
        · exact absurd hb.symm hne
      · rcases ha with ha | ha
        · by_cases heb : b = k
          · subst heb
            simp only [hea, if_false, if_pos rfl] at hca ⊢
            exact fun hx => lt_irrefl _ (hx.symm ▸ h7 a ha)
          · simp only [hea, heb, if_false] at hca hcb ⊢
            rcases hb with hb | hb
            · exact h6 a ha b hb hne hca hcb
            · exact absurd hb heb
        · exact absurd ha hea
    · intro k' hk'
      by_cases he : k' = k
      · subst he; simp
      · simp only [he, if_false]
        simp only [List.mem_append, List.mem_singleton] at hk'
        rcases hk' with hk' | hk'
        · exact Nat.lt_succ_of_lt (h7 k' hk')
        · exact absurd hk' he
    · intro t ht
      simp only [List.mem_append, List.mem_singleton] at ht
      rcases ht with ht | ht
      · exact Nat.lt_succ_of_lt (h8 t ht)
      · simp [ht]
    · intro k' hs'
      by_cases he : k' = k
      · subst he; simp
      · simp only [he, if_false] at hs'
        exact List.mem_append_left _ (h9 k' hs')
    · intro k' hs'
      by_cases he : k' = k
      · subst he; simp at hs'
      · simp only [he, if_false] at hs' ⊢
        exact h10 k' hs'

theorem WFAd_adStep (ad : AdSt) (ev : AdEv) (h : WFAd ad) : WFAd (adStep ad ev) := by
  cases ev with
  | subscribe k => exact WFAd_subscribe ad k h
  | next k v =>
    by_cases ha : ad.active k = true
    · simp only [adStep, ha, if_true]
      apply WFAd_cleanupTask
      refine WFAd_congr ad _ rfl rfl ?_ ?_ ?_ h <;> intro k' <;> by_cases he : k' = k <;>
        simp [he]
    · simp only [adStep, ha]; simpa using h
  | complete k =>
    by_cases ha : ad.active k = true
    · simp only [adStep, ha, if_true]
      apply WFAd_closeSub
      apply WFAd_pushT
      apply WFAd_cleanupTask
      refine WFAd_congr ad _ rfl rfl ?_ ?_ ?_ h <;> intro k' <;> by_cases he : k' = k <;>
        simp [he]
    · simp only [adStep, ha]; simpa using h
  | error k =>
    by_cases ha : ad.active k = true
    · simp only [adStep, ha, if_true]
      apply WFAd_closeSub
      apply WFAd_pushT
      apply WFAd_cleanupTask
      refine WFAd_congr ad _ rfl rfl ?_ ?_ ?_ h <;> intro k' <;> by_cases he : k' = k <;>
        simp [he]
    · simp only [adStep, ha]; simpa using h
  | unsubscribe k =>
    by_cases ha : ad.active k = true
    · simp only [adStep, ha, if_true]
      exact WFAd_closeSub _ _ (WFAd_pushT _ _ (WFAd_cleanupTask _ _ (WFAd_pushT _ _ h)))
    · simp only [adStep, ha]; simpa using h
  | destroyInj =>
    show WFAd (ad.subIds.foldl destroyOne ad)
    have : ∀ (l : List Nat) (a : AdSt), WFAd a → WFAd (l.foldl destroyOne a) := by
      intro l
      induction l with
      | nil => intro a ha; exact ha
      | cons x xs ih => intro a ha; exact ih _ (WFAd_destroyOne a x ha)
    exact this _ _ h

theorem Registry.remove_regCount (r : Registry) (id : Nat) :
    (r.remove id).regCount = r.regCount := by
  unfold Registry.remove; split <;> rfl

theorem Registry.remove_nextId (r : Registry) (id : Nat) :
    (r.remove id).nextId = r.nextId := by
  unfold Registry.remove; split <;> rfl

theorem countTR_append (k : Nat) (t1 t2 : List TEntry) :
    countTR k (t1 ++ t2) = countTR k t1 + countTR k t2 := by
  simp [countTR, List.countP_append]

theorem cleanupTask_regCount (ad : AdSt) (k : Nat) :
    (cleanupTask ad k).reg.regCount = ad.reg.regCount := by
  by_cases h : (ad.subs k).cleanedUp = true
  · rw [cleanupTask_cleaned h]
  · have h' : (ad.subs k).cleanedUp = false := by
      cases hx : (ad.subs k).cleanedUp
      · rfl
      · exact absurd hx h
    rw [cleanupTask_reg h', Registry.remove_regCount]

theorem cleanupTask_subscribed (ad : AdSt) (k j : Nat) :
    ((cleanupTask ad k).subs j).subscribed = (ad.subs j).subscribed := by
  by_cases he : j = k
  · subst he
    by_cases h : (ad.subs j).cleanedUp = true
    · rw [cleanupTask_cleaned h]
    · have h' : (ad.subs j).cleanedUp = false := by
        cases hx : (ad.subs j).cleanedUp
        · rfl
        · exact absurd hx h
      rw [cleanupTask_subs_self h']
  · rw [cleanupTask_subs_ne ad he]

theorem cleanupTask_cleaned_mono (ad : AdSt) (k j : Nat)
    (h : (ad.subs j).cleanedUp = true) : ((cleanupTask ad k).subs j).cleanedUp = true := by
  by_cases he : j = k
  · subst he; rw [cleanupTask_cleaned h]; exact h
  · rw [cleanupTask_subs_ne ad he]; exact h

theorem closeSub_subscribed (ad : AdSt) (k j : Nat) :
    ((closeSub ad k).subs j).subscribed = (ad.subs j).subscribed := by
  by_cases he : j = k
  · subst he; rw [closeSub_subs_self]
  · rw [closeSub_subs_ne ad he]

theorem closeSub_cleanedUp (ad : AdSt) (k j : Nat) :
    ((closeSub ad k).subs j).cleanedUp = (ad.subs j).cleanedUp := by
  by_cases he : j = k
  · subst he; rw [closeSub_subs_self]
  · rw [closeSub_subs_ne ad he]

theorem destroyOne_subscribed (ad : AdSt) (k j : Nat) :
    ((destroyOne ad k).subs j).subscribed = (ad.subs j).subscribed := by
  unfold destroyOne
  rw [closeSub_subscribed, cleanupTask_subscribed]

theorem destroyOne_cleaned_mono (ad : AdSt) (k j : Nat)
    (h : (ad.subs j).cleanedUp = true) : ((destroyOne ad k).subs j).cleanedUp = true := by
  unfold destroyOne
  rw [closeSub_cleanedUp]
  exact cleanupTask_cleaned_mono ad k j h

theorem destroyOne_regCount (ad : AdSt) (k : Nat) :
    (destroyOne ad k).reg.regCount = ad.reg.regCount := by
  unfold destroyOne
  rw [closeSub_reg, cleanupTask_regCount]

theorem destroyOne_subs_other (ad : AdSt) {k j : Nat} (hne : j ≠ k) :
    (destroyOne ad k).subs j = ad.subs j := by
  unfold destroyOne
  rw [closeSub_subs_ne _ hne, cleanupTask_subs_ne _ hne]

theorem destroyOne_count_other (ad : AdSt) {k j : Nat} (hne : k ≠ j) :
    countTR j (destroyOne ad k).trace = countTR j ad.trace := by
  unfold destroyOne
  rw [closeSub_trace]
  by_cases h : (ad.subs k).cleanedUp = true
  · rw [cleanupTask_cleaned h]
  · have h' : (ad.subs k).cleanedUp = false := by
      cases hx : (ad.subs k).cleanedUp
      · rfl
      · exact absurd hx h
    rw [cleanupTask_trace h', countTR_append]
    simp [countTR, List.countP_cons, hne]

theorem destroyOne_count_cleaned (ad : AdSt) (k j : Nat)
    (h : (ad.subs j).cleanedUp = true) :
    countTR j (destroyOne ad k).trace = countTR j ad.trace := by
  by_cases he : k = j
  · subst he
    unfold destroyOne
    rw [closeSub_trace, cleanupTask_cleaned h]
  · exact destroyOne_count_other ad he

theorem destroyOne_count_self (ad : AdSt) (k : Nat) (h : (ad.subs k).cleanedUp = false) :
    countTR k (destroyOne ad k).trace = countTR k ad.trace + 1 ∧
    ((destroyOne ad k).subs k).cleanedUp = true := by
  constructor
  · unfold destroyOne
    rw [closeSub_trace, cleanupTask_trace h, countTR_append]
    simp [countTR, List.countP_cons]
  · unfold destroyOne
    rw [closeSub_cleanedUp, cleanupTask_subs_self h]

theorem destroy_fold_cleaned (k : Nat) :
    ∀ (l : List Nat) (ad : AdSt), (ad.subs k).cleanedUp = true →
      countTR k (l.foldl destroyOne ad).trace = countTR k ad.trace ∧
      ((l.foldl destroyOne ad).subs k).cleanedUp = true := by
  intro l
  induction l with
  | nil => intro ad h; exact ⟨rfl, h⟩
  | cons x xs ih =>
    intro ad h
    simp only [List.foldl_cons]
    have h' := destroyOne_cleaned_mono ad x k h
    have := ih (destroyOne ad x) h'
    refine ⟨?_, this.2⟩
    rw [this.1, destroyOne_count_cleaned ad x k h]

theorem destroy_fold_count (k : Nat) :
    ∀ (l : List Nat) (ad : AdSt), k ∈ l → (ad.subs k).cleanedUp = false →
      countTR k (l.foldl destroyOne ad).trace = countTR k ad.trace + 1 ∧
      ((l.foldl destroyOne ad).subs k).cleanedUp = true := by
  intro l
  induction l with
  | nil => intro ad h; cases h
  | cons x xs ih =>
    intro ad hmem hcl
    simp only [List.foldl_cons]
    by_cases he : x = k
    · subst he
      obtain ⟨hc1, hc2⟩ := destroyOne_count_self ad x hcl
      obtain ⟨hd1, hd2⟩ := destroy_fold_cleaned x xs (destroyOne ad x) hc2
      exact ⟨by rw [hd1, hc1], hd2⟩
    · have hmem' : k ∈ xs := by
        rcases List.mem_cons.mp hmem with h | h
        · exact absurd h.symm he
        · exact h
      have hsubs : (destroyOne ad x).subs k = ad.subs k :=
        destroyOne_subs_other ad (fun hx => he hx.symm)
      obtain ⟨hi1, hi2⟩ := ih (destroyOne ad x) hmem' (by rw [hsubs]; exact hcl)
      exact ⟨by rw [hi1, destroyOne_count_other ad he], hi2⟩

theorem destroy_fold_regCount :
    ∀ (l : List Nat) (ad : AdSt),
      (l.foldl destroyOne ad).reg.regCount = ad.reg.regCount := by
  intro l
  induction l with
  | nil => intro ad; rfl
  | cons x xs ih =>
    intro ad
    rw [List.foldl_cons, ih, destroyOne_regCount]

theorem adStep_regCount (ad : AdSt) (ev : AdEv) (hns : ev.isSubscribe = false) :
    (adStep ad ev).reg.regCount = ad.reg.regCount := by
  cases ev with
  | subscribe k => simp [AdEv.isSubscribe] at hns
  | next k v =>
    by_cases ha : ad.active k = true
    · simp only [adStep, ha, if_true]
      rw [cleanupTask_regCount]
    · simp [adStep, ha]
  | complete k =>
    by_cases ha : ad.active k = true
    · simp only [adStep, ha, if_true]
      rw [closeSub_reg, pushT, cleanupTask_regCount]
    · simp [adStep, ha]
  | error k =>
    by_cases ha : ad.active k = true
    · simp only [adStep, ha, if_true]
      rw [closeSub_reg, pushT, cleanupTask_regCount]
    · simp [adStep, ha]
  | unsubscribe k =>
    by_cases ha : ad.active k = true
    · simp only [adStep, ha, if_true]
      rw [closeSub_reg, pushT, cleanupTask_regCount, pushT]
    · simp [adStep, ha]
  | destroyInj => exact destroy_fold_regCount _ _

theorem destroy_fold_subscribed (j : Nat) :
    ∀ (l : List Nat) (ad : AdSt),
      ((l.foldl destroyOne ad).subs j).subscribed = (ad.subs j).subscribed := by
  intro l
  induction l with
  | nil => intro ad; rfl
  | cons x xs ih =>
    intro ad
    rw [List.foldl_cons, ih, destroyOne_subscribed]

theorem adStep_subscribed (ad : AdSt) (ev : AdEv) (j : Nat) (hns : ev.isSubscribe = false) :
    ((adStep ad ev).subs j).subscribed = (ad.subs j).subscribed := by
  cases ev with
  | subscribe k => simp [AdEv.isSubscribe] at hns
  | next k v =>
    by_cases ha : ad.active k = true
    · simp only [adStep, ha, if_true]
      rw [cleanupTask_subscribed]
      by_cases he : j = k
      · subst he; simp
      · simp [he]
    · simp [adStep, ha]
  | complete k =>
    by_cases ha : ad.active k = true
    · simp only [adStep, ha, if_true]
      rw [closeSub_subscribed, pushT, cleanupTask_subscribed]
      by_cases he : j = k
      · subst he; simp
      · simp [he]
    · simp [adStep, ha]
  | error k =>
    by_cases ha : ad.active k = true
    · simp only [adStep, ha, if_true]
      rw [closeSub_subscribed, pushT, cleanupTask_subscribed]
      by_cases he : j = k
      · subst he; simp
      · simp [he]
    · simp [adStep, ha]
  | unsubscribe k =>
    by_cases ha : ad.active k = true
    · simp only [adStep, ha, if_true]
      rw [closeSub_subscribed, pushT, cleanupTask_subscribed, pushT]
    · simp [adStep, ha]
  | destroyInj => exact destroy_fold_subscribed j _ _

theorem pushT_trace (ad : AdSt) (es : List TEntry) : (pushT ad es).trace = ad.trace ++ es :=
  rfl

theorem pushT_subs (ad : AdSt) (es : List TEntry) (j : Nat) :
    (pushT ad es).subs j = ad.subs j := rfl

theorem cleanupTask_count_other (ad : AdSt) {k j : Nat} (hne : k ≠ j) :
    countTR j (cleanupTask ad k).trace = countTR j ad.trace := by
  by_cases h : (ad.subs k).cleanedUp = true
  · rw [cleanupTask_cleaned h]
  · have h' : (ad.subs k).cleanedUp = false := by
      cases hx : (ad.subs k).cleanedUp
      · rfl
      · exact absurd hx h
    rw [cleanupTask_trace h', countTR_append]
    simp [countTR, List.countP_cons, hne]

theorem countTR_fins (j k : Nat) (p q : Bool) :
    countTR j [TEntry.upFin k p, TEntry.downFin k q] = 0 := by
  simp [countTR, List.countP_cons]

theorem adStep_frame (ad : AdSt) (ev : AdEv) (j : Nat)
    (hns : ev.isSubscribe = false) (hfor : ev.forSub j = false) :
    (adStep ad ev).subs j = ad.subs j ∧
    countTR j (adStep ad ev).trace = countTR j ad.trace := by
  cases ev with
  | subscribe k => simp [AdEv.isSubscribe] at hns
  | next k v =>
    have hne : ¬(k = j) := by simpa [AdEv.forSub] using hfor
    have hne' : j ≠ k := fun hx => hne hx.symm
    by_cases ha : ad.active k = true
    · simp only [adStep, ha, if_true]
      constructor
      · rw [cleanupTask_subs_ne _ hne']; simp [hne']
      · rw [cleanupTask_count_other _ hne]
        show countTR j (ad.trace ++ [.nextD k v]) = countTR j ad.trace
        rw [countTR_append]
        simp [countTR, List.countP_cons]
    · simp [adStep, ha]
  | complete k =>
    have hne : ¬(k = j) := by simpa [AdEv.forSub] using hfor
    have hne' : j ≠ k := fun hx => hne hx.symm
    by_cases ha : ad.active k = true
    · simp only [adStep, ha, if_true]
      constructor
      · rw [closeSub_subs_ne _ hne', pushT_subs, cleanupTask_subs_ne _ hne']; simp [hne']
      · rw [closeSub_trace, pushT_trace, countTR_append, countTR_fins,
          cleanupTask_count_other _ hne]
        show countTR j (ad.trace ++ [.completeCb k]) + 0 = countTR j ad.trace
        rw [countTR_append]
        simp [countTR, List.countP_cons]
    · simp [adStep, ha]
  | error k =>
    have hne : ¬(k = j) := by simpa [AdEv.forSub] using hfor
    have hne' : j ≠ k := fun hx => hne hx.symm
    by_cases ha : ad.active k = true
    · simp only [adStep, ha, if_true]
      constructor
      · rw [closeSub_subs_ne _ hne', pushT_subs, cleanupTask_subs_ne _ hne']; simp [hne']
      · rw [closeSub_trace, pushT_trace, countTR_append, countTR_fins,
          cleanupTask_count_other _ hne]
        show countTR j (ad.trace ++ [.errorCb k]) + 0 = countTR j ad.trace
        rw [countTR_append]
        simp [countTR, List.countP_cons]
    · simp [adStep, ha]
  | unsubscribe k =>
    have hne : ¬(k = j) := by simpa [AdEv.forSub] using hfor
    have hne' : j ≠ k := fun hx => hne hx.symm
    by_cases ha : ad.active k = true
    · simp only [adStep, ha, if_true]
      constructor
      · rw [closeSub_subs_ne _ hne', pushT_subs, cleanupTask_subs_ne _ hne', pushT_subs]
      · rw [closeSub_trace, pushT_trace, countTR_append, cleanupTask_count_other _ hne,
          pushT_trace, countTR_append]
        simp [countTR, List.countP_cons]
    · simp [adStep, ha]
  | destroyInj => simp [AdEv.forSub] at hfor

theorem adStep_cleaned (ad : AdSt) (ev : AdEv) (j : Nat)
    (hns : ev.isSubscribe = false) (hcl : (ad.subs j).cleanedUp = true) :
    ((adStep ad ev).subs j).cleanedUp = true ∧
    countTR j (adStep ad ev).trace = countTR j ad.trace := by
  cases ev with
  | subscribe k => simp [AdEv.isSubscribe] at hns
  | next k v =>
    by_cases he : k = j
    · subst he
      by_cases ha : ad.active k = true
      · simp only [adStep, ha, if_true]
        have h1 : (({ ad with
            subs := fun k' => if k' = k then
              { ad.subs k with received := (ad.subs k).received ++ [v] } else ad.subs k'
            trace := ad.trace ++ [.nextD k v] } : AdSt).subs k).cleanedUp = true := by
          simpa using hcl
        rw [cleanupTask_cleaned h1]
        constructor
        · simpa using hcl
        · show countTR k (ad.trace ++ [.nextD k v]) = countTR k ad.trace
          rw [countTR_append]; simp [countTR, List.countP_cons]
      · simp only [adStep, ha, if_false]; exact ⟨hcl, rfl⟩
    · have := adStep_frame ad (.next k v) j hns (by simp [AdEv.forSub, he])
      exact ⟨by rw [this.1]; exact hcl, this.2⟩
  | complete k =>
    by_cases he : k = j
    · subst he
      by_cases ha : ad.active k = true
      · simp only [adStep, ha, if_true]
        have h1 : (({ ad with
            subs := fun k' => if k' = k then
              { ad.subs k with gotComplete := true } else ad.subs k'
            trace := ad.trace ++ [.completeCb k] } : AdSt).subs k).cleanedUp = true := by
          simpa using hcl
        rw [cleanupTask_cleaned h1]
        constructor
        · rw [closeSub_cleanedUp, pushT_subs]; simpa using hcl
        · rw [closeSub_trace, pushT_trace, countTR_append, countTR_fins]
          show countTR k (ad.trace ++ [.completeCb k]) + 0 = countTR k ad.trace
          rw [countTR_append]; simp [countTR, List.countP_cons]
      · simp only [adStep, ha, if_false]; exact ⟨hcl, rfl⟩
    · have := adStep_frame ad (.complete k) j hns (by simp [AdEv.forSub, he])
      exact ⟨by rw [this.1]; exact hcl, this.2⟩
  | error k =>
    by_cases he : k = j
    · subst he
      by_cases ha : ad.active k = true
      · simp only [adStep, ha, if_true]
        have h1 : (({ ad with
            subs := fun k' => if k' = k then
              { ad.subs k with gotError := true } else ad.subs k'
            trace := ad.trace ++ [.errorCb k] } : AdSt).subs k).cleanedUp = true := by
          simpa using hcl
        rw [cleanupTask_cleaned h1]
        constructor
        · rw [closeSub_cleanedUp, pushT_subs]; simpa using hcl
        · rw [closeSub_trace, pushT_trace, countTR_append, countTR_fins]
          show countTR k (ad.trace ++ [.errorCb k]) + 0 = countTR k ad.trace
          rw [countTR_append]; simp [countTR, List.countP_cons]
      · simp only [adStep, ha, if_false]; exact ⟨hcl, rfl⟩
    · have := adStep_frame ad (.error k) j hns (by simp [AdEv.forSub, he])
      exact ⟨by rw [this.1]; exact hcl, this.2⟩
  | unsubscribe k =>
    by_cases he : k = j
    · subst he
      by_cases ha : ad.active k = true
      · simp only [adStep, ha, if_true]
        have h1 : ((pushT ad [.upFin k ad.reg.hasPending]).subs k).cleanedUp = true := by
          rw [pushT_subs]; exact hcl
        rw [cleanupTask_cleaned h1]
        constructor
        · rw [closeSub_cleanedUp, pushT_subs, pushT_subs]; exact hcl
        · rw [closeSub_trace, pushT_trace, pushT_trace, countTR_append, countTR_append]
          simp [countTR, List.countP_cons]
      · simp only [adStep, ha, if_false]; exact ⟨hcl, rfl⟩
    · have := adStep_frame ad (.unsubscribe k) j hns (by simp [AdEv.forSub, he])
      exact ⟨by rw [this.1]; exact hcl, this.2⟩
  | destroyInj =>
    have := destroy_fold_cleaned j ad.subIds ad hcl
    exact ⟨this.2, this.1⟩

theorem adStep_forSub_cleans (ad : AdSt) (ev : AdEv) (j : Nat)
    (hwf : WFAd ad) (hfor : ev.forSub j = true)
    (hsub : (ad.subs j).subscribed = true) (hcl : (ad.subs j).cleanedUp = false)
    (hop : (ad.subs j).closed = false) :
    ((adStep ad ev).subs j).cleanedUp = true ∧
    countTR j (adStep ad ev).trace = countTR j ad.trace + 1 := by
  have ha : ad.active j = true := by simp [AdSt.active, hsub, hop]
  cases ev with
  | subscribe k => simp [AdEv.forSub] at hfor
  | next k v =>
    have he : k = j := by simpa [AdEv.forSub] using hfor
    subst he
    simp only [adStep, ha, if_true]
    have h1 : (({ ad with
        subs := fun k' => if k' = k then
          { ad.subs k with received := (ad.subs k).received ++ [v] } else ad.subs k'
        trace := ad.trace ++ [.nextD k v] } : AdSt).subs k).cleanedUp = false := by
      simpa using hcl
    constructor
    · rw [cleanupTask_subs_self h1]
    · rw [cleanupTask_trace h1, countTR_append]
      show countTR k (ad.trace ++ [.nextD k v]) + _ = _
      rw [countTR_append]
      simp [countTR, List.countP_cons]
  | complete k =>
    have he : k = j := by simpa [AdEv.forSub] using hfor
    subst he
    simp only [adStep, ha, if_true]
    have h1 : (({ ad with
        subs := fun k' => if k' = k then
          { ad.subs k with gotComplete := true } else ad.subs k'
        trace := ad.trace ++ [.completeCb k] } : AdSt).subs k).cleanedUp = false := by
      simpa using hcl
    constructor
    · rw [closeSub_cleanedUp, pushT_subs, cleanupTask_subs_self h1]
    · rw [closeSub_trace, pushT_trace, countTR_append, countTR_fins,
        cleanupTask_trace h1, countTR_append]
      show countTR k (ad.trace ++ [.completeCb k]) + _ + 0 = _
      rw [countTR_append]
      simp [countTR, List.countP_cons]
  | error k =>
    have he : k = j := by simpa [AdEv.forSub] using hfor
    subst he
    simp only [adStep, ha, if_true]
    have h1 : (({ ad with
        subs := fun k' => if k' = k then
          { ad.subs k with gotError := true } else ad.subs k'
        trace := ad.trace ++ [.errorCb k] } : AdSt).subs k).cleanedUp = false := by
      simpa using hcl
    constructor
    · rw [closeSub_cleanedUp, pushT_subs, cleanupTask_subs_self h1]
    · rw [closeSub_trace, pushT_trace, countTR_append, countTR_fins,
        cleanupTask_trace h1, countTR_append]
      show countTR k (ad.trace ++ [.errorCb k]) + _ + 0 = _
      rw [countTR_append]
      simp [countTR, List.countP_cons]
  | unsubscribe k =>
    have he : k = j := by simpa [AdEv.forSub] using hfor
    subst he
    simp only [adStep, ha, if_true]
    have h1 : ((pushT ad [.upFin k ad.reg.hasPending]).subs k).cleanedUp = false := by
      rw [pushT_subs]; exact hcl
    constructor
    · rw [closeSub_cleanedUp, pushT_subs, cleanupTask_subs_self h1]
    · rw [closeSub_trace, pushT_trace, countTR_append, cleanupTask_trace h1, countTR_append,
        pushT_trace, countTR_append]
      simp [countTR, List.countP_cons]
  | destroyInj =>
    have hk : j ∈ ad.subIds := hwf.2.2.2.2.2.2.2.2.1 j hsub
    have := destroy_fold_count j ad.subIds ad hk hcl
    exact ⟨this.2, this.1⟩

theorem c2_run (k : Nat) :
    ∀ (evs : List AdEv) (ad : AdSt), WFAd ad →
      (ad.subs k).subscribed = true →
      ((ad.subs k).cleanedUp = false → (ad.subs k).closed = false) →
      (∀ ev ∈ evs, ev.isSubscribe = false) →
      countTR k (adRun ad evs).trace = countTR k ad.trace +
        (if (ad.subs k).cleanedUp = false ∧ evs.any (AdEv.forSub k) = true then 1 else 0) ∧
      (adRun ad evs).reg.regCount = ad.reg.regCount := by
  intro evs
  induction evs with
  | nil =>
    intro ad _ _ _ _
    simp [adRun]
  | cons ev rest ih =>
    intro ad hwf hsub hoc hevs
    have hns : ev.isSubscribe = false := hevs ev (List.mem_cons_self ev rest)
    have hrest : ∀ e ∈ rest, e.isSubscribe = false :=
      fun e he => hevs e (List.mem_cons_of_mem ev he)
    have hwf' : WFAd (adStep ad ev) := WFAd_adStep ad ev hwf
    have hsub' : ((adStep ad ev).subs k).subscribed = true := by
      rw [adStep_subscribed ad ev k hns]; exact hsub
    have hstep : adRun ad (ev :: rest) = adRun (adStep ad ev) rest := by
      simp [adRun]
    by_cases hcl : (ad.subs k).cleanedUp = true
    · obtain ⟨hc1, hc2⟩ := adStep_cleaned ad ev k hns hcl
      obtain ⟨hr1, hr2⟩ := ih (adStep ad ev) hwf' hsub'
        (fun hx => by rw [hc1] at hx; cases hx) hrest
      rw [hstep]
      constructor
      · rw [hr1, hc2]
        simp [hcl, hc1]
      · rw [hr2, adStep_regCount ad ev hns]
    · replace hcl : (ad.subs k).cleanedUp = false := by
        cases hx : (ad.subs k).cleanedUp
        · rfl
        · exact absurd hx hcl
      by_cases hfor : ev.forSub k = true
      · obtain ⟨hc1, hc2⟩ := adStep_forSub_cleans ad ev k hwf hfor hsub hcl (hoc hcl)
        obtain ⟨hr1, hr2⟩ := ih (adStep ad ev) hwf' hsub'
          (fun hx => by rw [hc1] at hx; cases hx) hrest
        rw [hstep]
        constructor
        · rw [hr1, hc2]
          simp [hcl, hc1, hfor, List.any_cons]
        · rw [hr2, adStep_regCount ad ev hns]
      · replace hfor : ev.forSub k = false := by
          cases hx : ev.forSub k
          · rfl
          · exact absurd hx hfor
        obtain ⟨hf1, hf2⟩ := adStep_frame ad ev k hns hfor
        obtain ⟨hr1, hr2⟩ := ih (adStep ad ev) hwf' hsub'
          (fun hx => by rw [hf1] at hx ⊢; exact hoc hx) hrest
        rw [hstep]
        constructor
        · rw [hr1, hf2, hf1]
          simp [List.any_cons, hfor]
        · rw [hr2, adStep_regCount ad ev hns]

theorem adStep_subscribe_new (ad : AdSt) (k : Nat) (hns : (ad.subs k).subscribed = false) :
    (adStep ad (.subscribe k)).reg.tasks = ad.reg.tasks ++ [ad.reg.nextId] ∧
    (adStep ad (.subscribe k)).reg.regCount = ad.reg.regCount + 1 ∧
    (adStep ad (.subscribe k)).subs k =
      ⟨true, false, false, ad.reg.nextId, [], false, false⟩ ∧
    (adStep ad (.subscribe k)).trace = ad.trace := by
  simp [adStep, hns, Registry.add]

/-- C2: subscribing through the bridging adapter registers exactly one
pending task at subscribe time (the "has pending tasks" signal is true
immediately afterwards and the registration counter increases by exactly
one), and over any subsequent event sequence on that subscription (emissions,
completion, error, unsubscribe, injector destruction) the task is
unregistered exactly once — precisely when some such event has occurred, and
since the count equation holds for every prefix of the sequence, the removal
happens at the first of them — while no later event ever performs another
registration (the registration counter never moves again). -/
theorem c2_pending_until_first_event (ad : AdSt) (k : Nat) (evs : List AdEv)
    (hwf : WFAd ad) (hns : (ad.subs k).subscribed = false)
    (hevs : ∀ ev ∈ evs, ev.isSubscribe = false) :
    (adStep ad (.subscribe k)).reg.hasPending = true ∧
    (adStep ad (.subscribe k)).reg.regCount = ad.reg.regCount + 1 ∧
    ((adStep ad (.subscribe k)).subs k).cleanedUp = false ∧
    countTR k (adRun (adStep ad (.subscribe k)) evs).trace =
      countTR k ad.trace + (if evs.any (AdEv.forSub k) = true then 1 else 0) ∧
    (adRun (adStep ad (.subscribe k)) evs).reg.regCount =
      ad.reg.regCount + 1 := by
  obtain ⟨ht, hrc, hsk, htr⟩ := adStep_subscribe_new ad k hns
  have hwf' : WFAd (adStep ad (.subscribe k)) := WFAd_subscribe ad k hwf
  have hsub' : ((adStep ad (.subscribe k)).subs k).subscribed = true := by rw [hsk]
  have hcl' : ((adStep ad (.subscribe k)).subs k).cleanedUp = false := by rw [hsk]
  have hoc' : ((adStep ad (.subscribe k)).subs k).cleanedUp = false →
      ((adStep ad (.subscribe k)).subs k).closed = false := fun _ => by rw [hsk]
  obtain ⟨hr1, hr2⟩ := c2_run k evs (adStep ad (.subscribe k)) hwf' hsub' hoc' hevs
  refine ⟨?_, hrc, hcl', ?_, ?_⟩
  · simp [Registry.hasPending, ht]
  · rw [hr1, htr, hcl']
    simp
  · rw [hr2, hrc]

/-- C2 witness -/
theorem c2_pending_until_first_event_witness :
    (adStep AdSt.init (.subscribe 0)).reg.hasPending = true ∧
    (adStep AdSt.init (.subscribe 0)).reg.regCount = AdSt.init.reg.regCount + 1 ∧
    ((adStep AdSt.init (.subscribe 0)).subs 0).cleanedUp = false ∧
    countTR 0 (adRun (adStep AdSt.init (.subscribe 0))
        [.next 0 5, .next 0 6, .complete 0]).trace =
      countTR 0 AdSt.init.trace +
        (if ([AdEv.next 0 5, AdEv.next 0 6, AdEv.complete 0].any (AdEv.forSub 0) = true)
          then 1 else 0) ∧
    (adRun (adStep AdSt.init (.subscribe 0))
        [.next 0 5, .next 0 6, .complete 0]).reg.regCount =
      AdSt.init.reg.regCount + 1 :=
  c2_pending_until_first_event AdSt.init 0 [.next 0 5, .next 0 6, .complete 0]
    WFAd_init (by rfl) (by intro ev hev; fin_cases hev <;> rfl)

theorem Registry.hasPending_of_mem (r : Registry) (t : Nat) (h : t ∈ r.tasks) :
    r.hasPending = true := by
  simp only [Registry.hasPending, Bool.not_eq_true']
  cases hx : r.tasks
  · rw [hx] at h; cases h
  · simp [List.isEmpty]

theorem Registry.hasPending_false_iff (r : Registry) :
    r.hasPending = false ↔ r.tasks = [] := by
  simp [Registry.hasPending, List.isEmpty_iff]

theorem Registry.remove_tasks_sub (r : Registry) (id t : Nat)
    (h : t ∈ (r.remove id).tasks) : t ∈ r.tasks := by
  unfold Registry.remove at h
  split at h
  · exact List.mem_of_mem_erase h
  · exact h

theorem Registry.remove_errors_of_mem (r : Registry) (id : Nat) (h : id ∈ r.tasks) :
    (r.remove id).errors = r.errors := by
  rw [Registry.remove_mem r id h]

/-- C7: subscriptions through the bridging adapter have independent
pending-task bookkeeping: while a subscription `k₁` is still awaiting its
first event, an emission on a different subscription `k₂` leaves `k₁`'s state
entirely untouched and the "has pending tasks" signal still true (one
subscription's first emission never clears another's task); moreover the
signal is false exactly when every subscription's task has been removed. -/
theorem c7_independent_subscriptions (ad : AdSt) (k₁ k₂ : Nat) (v : Int)
    (hwf : WFAd ad) (h₁ : k₁ ∈ ad.subIds) (hne : k₁ ≠ k₂)
    (hp : (ad.subs k₁).cleanedUp = false) :
    (adStep ad (.next k₂ v)).subs k₁ = ad.subs k₁ ∧
    (adStep ad (.next k₂ v)).reg.hasPending = true ∧
    (ad.reg.hasPending = false ↔ ∀ j ∈ ad.subIds, (ad.subs j).cleanedUp = true) := by
  obtain ⟨hw1, hw2, hw3, hw4, hw5, hw6, hw7, hw8, hw9, hw10⟩ := hwf
  have ht₁ : (ad.subs k₁).taskId ∈ ad.reg.tasks := hw4 k₁ h₁ hp
  refine ⟨?_, ?_, ?_⟩
  · have hne' : ¬k₂ = k₁ := fun hx => hne hx.symm
    exact (adStep_frame ad (.next k₂ v) k₁ rfl (by simp [AdEv.forSub, hne'])).1
  · by_cases ha : ad.active k₂ = true
    · simp only [adStep, ha, if_true]
      by_cases hcl₂ : (ad.subs k₂).cleanedUp = true
      · have : (({ ad with
            subs := fun k' => if k' = k₂ then
              { ad.subs k₂ with received := (ad.subs k₂).received ++ [v] } else ad.subs k'
            trace := ad.trace ++ [.nextD k₂ v] } : AdSt).subs k₂).cleanedUp = true := by
          simpa using hcl₂
        rw [cleanupTask_cleaned this]
        exact Registry.hasPending_of_mem _ _ ht₁
      · replace hcl₂ : (ad.subs k₂).cleanedUp = false := by
          cases hx : (ad.subs k₂).cleanedUp
          · rfl
          · exact absurd hx hcl₂
        have hsub₂ : (ad.subs k₂).subscribed = true := by
          simp only [AdSt.active, Bool.and_eq_true] at ha
          exact ha.1
        have hk₂ : k₂ ∈ ad.subIds := hw9 k₂ hsub₂
        have hnet : (ad.subs k₁).taskId ≠ (ad.subs k₂).taskId :=
          hw6 k₁ h₁ k₂ hk₂ hne hp hcl₂
        have h1 : (({ ad with
            subs := fun k' => if k' = k₂ then
              { ad.subs k₂ with received := (ad.subs k₂).received ++ [v] } else ad.subs k'
            trace := ad.trace ++ [.nextD k₂ v] } : AdSt).subs k₂).cleanedUp = false := by
          simpa using hcl₂
        rw [cleanupTask_reg h1]
        have : (ad.subs k₁).taskId ∈
            (({ ad with
              subs := fun k' => if k' = k₂ then
                { ad.subs k₂ with received := (ad.subs k₂).received ++ [v] } else ad.subs k'
              trace := ad.trace ++ [.nextD k₂ v] } : AdSt).reg.remove
              (({ ad with
                subs := fun k' => if k' = k₂ then
                  { ad.subs k₂ with received := (ad.subs k₂).received ++ [v] } else ad.subs k'
                trace := ad.trace ++ [.nextD k₂ v] } : AdSt).subs k₂).taskId).tasks := by
          have hid : (({ ad with
              subs := fun k' => if k' = k₂ then
                { ad.subs k₂ with received := (ad.subs k₂).received ++ [v] } else ad.subs k'
              trace := ad.trace ++ [.nextD k₂ v] } : AdSt).subs k₂).taskId =
              (ad.subs k₂).taskId := by simp
          rw [hid]
          show (ad.subs k₁).taskId ∈ (ad.reg.remove (ad.subs k₂).taskId).tasks
          rw [Registry.remove_mem _ _ (hw4 k₂ hk₂ hcl₂)]
          exact (hw1.mem_erase_iff).mpr ⟨hnet, ht₁⟩
        exact Registry.hasPending_of_mem _ _ this
    · simp only [adStep, ha, if_false]
      exact Registry.hasPending_of_mem _ _ ht₁
  · constructor
    · intro hfalse j hj
      have hnil : ad.reg.tasks = [] := (Registry.hasPending_false_iff ad.reg).mp hfalse
      cases hx : (ad.subs j).cleanedUp
      · have := hw4 j hj hx
        rw [hnil] at this
        cases this
      · rfl
    · intro hall
      rw [Registry.hasPending_false_iff]
      cases hx : ad.reg.tasks with
      | nil => rfl
      | cons t ts =>
        obtain ⟨j, hj, hcl, _⟩ := hw5 t (by rw [hx]; exact List.mem_cons_self t ts)
        rw [hall j hj] at hcl
        cases hcl

/-- C7 witness -/
theorem c7_independent_subscriptions_witness :
    let ad := adRun AdSt.init [.subscribe 0, .subscribe 1]
    (adStep ad (.next 1 5)).subs 0 = ad.subs 0 ∧
    (adStep ad (.next 1 5)).reg.hasPending = true ∧
    (ad.reg.hasPending = false ↔ ∀ j ∈ ad.subIds, (ad.subs j).cleanedUp = true) :=
  c7_independent_subscriptions _ 0 1 5
    (by exact WFAd_adStep _ (.subscribe 1) (WFAd_adStep _ (.subscribe 0) WFAd_init))
    (by decide) (by decide) (by decide)

/-- C9: callback ordering around the bridging adapter, per the in-repository
tests.  On unsubscribe of a subscription still awaiting its first event, the
upstream finalize callback (registered on the inner subscription before the
adapter's teardown) runs while the "has pending tasks" signal is still true,
and only then is the pending task removed, with the downstream finalizer
after that.  On completion, the subscriber's complete callback is delivered
before the task removal and before any finalizer runs. -/
theorem c9_finalize_ordering (ad : AdSt) (k : Nat) (hwf : WFAd ad)
    (hsub : (ad.subs k).subscribed = true) (hop : (ad.subs k).closed = false)
    (hcl : (ad.subs k).cleanedUp = false) :
    (∃ p, (adStep ad (.unsubscribe k)).trace =
      ad.trace ++ [.upFin k true, .taskRemoved k, .downFin k p]) ∧
    (∃ p₁ p₂, (adStep ad (.complete k)).trace =
      ad.trace ++ [.completeCb k, .taskRemoved k, .upFin k p₁, .downFin k p₂]) := by
  obtain ⟨hw1, hw2, hw3, hw4, hw5, hw6, hw7, hw8, hw9, hw10⟩ := hwf
  have ha : ad.active k = true := by simp [AdSt.active, hsub, hop]
  have hk : k ∈ ad.subIds := hw9 k hsub
  have hpend : ad.reg.hasPending = true :=
    Registry.hasPending_of_mem _ _ (hw4 k hk hcl)
  constructor
  · simp only [adStep, ha, if_true]
    have h1 : ((pushT ad [.upFin k ad.reg.hasPending]).subs k).cleanedUp = false := by
      rw [pushT_subs]; exact hcl
    refine ⟨(cleanupTask (pushT ad [.upFin k ad.reg.hasPending]) k).reg.hasPending, ?_⟩
    rw [closeSub_trace, pushT_trace, cleanupTask_trace h1, pushT_trace, hpend]
    simp
  · simp only [adStep, ha, if_true]
    have h1 : (({ ad with
        subs := fun k' => if k' = k then
          { ad.subs k with gotComplete := true } else ad.subs k'
        trace := ad.trace ++ [.completeCb k] } : AdSt).subs k).cleanedUp = false := by
      simpa using hcl
    refine ⟨(cleanupTask ({ ad with
        subs := fun k' => if k' = k then
          { ad.subs k with gotComplete := true } else ad.subs k'
        trace := ad.trace ++ [.completeCb k] } : AdSt) k).reg.hasPending,
      (cleanupTask ({ ad with
        subs := fun k' => if k' = k then
          { ad.subs k with gotComplete := true } else ad.subs k'
        trace := ad.trace ++ [.completeCb k] } : AdSt) k).reg.hasPending, ?_⟩
    rw [closeSub_trace, pushT_trace, cleanupTask_trace h1]
    simp

/-- C9 witness -/
theorem c9_finalize_ordering_witness :
    let ad := adRun AdSt.init [.subscribe 0, .subscribe 1]
    (∃ p, (adStep ad (.unsubscribe 0)).trace =
      ad.trace ++ [.upFin 0 true, .taskRemoved 0, .downFin 0 p]) ∧
    (∃ p₁ p₂, (adStep ad (.complete 0)).trace =
      ad.trace ++ [.completeCb 0, .taskRemoved 0, .upFin 0 p₁, .downFin 0 p₂]) :=
  c9_finalize_ordering _ 0
    (by exact WFAd_adStep _ (.subscribe 1) (WFAd_adStep _ (.subscribe 0) WFAd_init))
    (by decide) (by decide) (by decide)

theorem destroyOne_reg (ad : AdSt) (k : Nat) :
    (destroyOne ad k).reg = (cleanupTask ad k).reg := rfl

theorem destroyOne_subIds (ad : AdSt) (k : Nat) :
    (destroyOne ad k).subIds = ad.subIds := by
  unfold destroyOne
  rw [closeSub_subIds, cleanupTask_subIds]

theorem destroyOne_closed_self (ad : AdSt) (k : Nat) :
    ((destroyOne ad k).subs k).closed = true := by
  unfold destroyOne
  rw [closeSub_subs_self]

theorem destroyOne_closed_mono (ad : AdSt) (x j : Nat)
    (h : (ad.subs j).closed = true) : ((destroyOne ad x).subs j).closed = true := by
  by_cases he : j = x
  · subst he; exact destroyOne_closed_self ad j
  · rw [destroyOne_subs_other ad he]; exact h

theorem destroy_fold_closed_mono (j : Nat) :
    ∀ (l : List Nat) (ad : AdSt), (ad.subs j).closed = true →
      ((l.foldl destroyOne ad).subs j).closed = true := by
  intro l
  induction l with
  | nil => intro ad h; exact h
  | cons x xs ih =>
    intro ad h
    rw [List.foldl_cons]
    exact ih _ (destroyOne_closed_mono ad x j h)

theorem destroy_fold_closed (j : Nat) :
    ∀ (l : List Nat) (ad : AdSt), j ∈ l →
      ((l.foldl destroyOne ad).subs j).closed = true := by
  intro l
  induction l with
  | nil => intro ad h; cases h
  | cons x xs ih =>
    intro ad hmem
    rw [List.foldl_cons]
    by_cases he : x = j
    · subst he
      exact destroy_fold_closed_mono x xs _ (destroyOne_closed_self ad x)
    · rcases List.mem_cons.mp hmem with h | h
      · exact absurd h.symm he
      · exact ih _ h

theorem destroy_fold_tasks :
    ∀ (l : List Nat) (ad : AdSt), WFAd ad → l.Nodup →
      (∀ t ∈ ad.reg.tasks, ∃ j ∈ l, (ad.subs j).cleanedUp = false ∧ (ad.subs j).taskId = t) →
      (l.foldl destroyOne ad).reg.tasks = [] := by
  intro l
  induction l with
  | nil =>
    intro ad _ _ hcov
    exact List.eq_nil_iff_forall_not_mem.mpr fun t ht => by
      obtain ⟨j, hj, _⟩ := hcov t ht
      cases hj
  | cons x xs ih =>
    intro ad hwf hnd hcov
    have hx_not : x ∉ xs := (List.nodup_cons.mp hnd).1
    have hnd' : xs.Nodup := (List.nodup_cons.mp hnd).2
    rw [List.foldl_cons]
    refine ih (destroyOne ad x) (WFAd_destroyOne ad x hwf) hnd' ?_
    intro t ht
    have htreg : t ∈ (cleanupTask ad x).reg.tasks := by
      rw [← destroyOne_reg]; exact ht
    by_cases hclx : (ad.subs x).cleanedUp = true
    · have hid : cleanupTask ad x = ad := cleanupTask_cleaned hclx
      rw [hid] at htreg
      obtain ⟨j, hj, hjcl, hjt⟩ := hcov t htreg
      rcases List.mem_cons.mp hj with hj' | hj'
      · subst hj'; rw [hclx] at hjcl; cases hjcl
      · have hjx : j ≠ x := fun hx => hx_not (hx ▸ hj')
        exact ⟨j, hj', by rw [destroyOne_subs_other ad hjx]; exact ⟨hjcl, hjt⟩⟩
    · replace hclx : (ad.subs x).cleanedUp = false := by
        cases hc : (ad.subs x).cleanedUp
        · rfl
        · exact absurd hc hclx
      rw [cleanupTask_reg hclx] at htreg
      have htmem : t ∈ ad.reg.tasks := Registry.remove_tasks_sub _ _ _ htreg
      obtain ⟨j, hj, hjcl, hjt⟩ := hcov t htmem
      have hjx : j ≠ x := by
        intro hx
        subst hx
        -- then t is j's task id, which the remove just eliminated
        by_cases hmem : (ad.subs j).taskId ∈ ad.reg.tasks
        · rw [Registry.remove_mem _ _ (hjt ▸ hmem)] at htreg
          exact ((hwf.1.mem_erase_iff).mp htreg).1 hjt.symm
        · rw [Registry.remove_not_mem _ _ (hjt ▸ hmem)] at htreg
          exact hmem (hjt ▸ htmem)
      rcases List.mem_cons.mp hj with hj' | hj'
      · exact absurd hj' hjx
      · exact ⟨j, hj', by rw [destroyOne_subs_other ad hjx]; exact ⟨hjcl, hjt⟩⟩

theorem destroy_fold_errors :
    ∀ (l : List Nat) (ad : AdSt), WFAd ad → (∀ j ∈ l, j ∈ ad.subIds) →
      (l.foldl destroyOne ad).reg.errors = ad.reg.errors := by
  intro l
  induction l with
  | nil => intro ad _ _; rfl
  | cons x xs ih =>
    intro ad hwf hsubset
    rw [List.foldl_cons]
    have hx : x ∈ ad.subIds := hsubset x (List.mem_cons_self x xs)
    have herr : (destroyOne ad x).reg.errors = ad.reg.errors := by
      rw [destroyOne_reg]
      by_cases hclx : (ad.subs x).cleanedUp = true
      · rw [cleanupTask_cleaned hclx]
      · replace hclx : (ad.subs x).cleanedUp = false := by
          cases hc : (ad.subs x).cleanedUp
          · rfl
          · exact absurd hc hclx
        rw [cleanupTask_reg hclx]
        exact Registry.remove_errors_of_mem _ _ (hwf.2.2.2.1 x hx hclx)
    rw [ih (destroyOne ad x) (WFAd_destroyOne ad x hwf)
      (fun j hj => by rw [destroyOne_subIds]; exact hsubset j (List.mem_cons_of_mem x hj)),
      herr]

/-- C10: if the owning injector is destroyed while adapter subscriptions are
still awaiting their first emission, every pending task is removed at
destruction time (the "has pending tasks" signal becomes false, with no
usage error reported), and a later emission on the underlying source is a
total no-op: it does not throw, does not change any state, and in particular
never makes the "has pending tasks" signal true again. -/
theorem c10_destroy_clears_pending (ad : AdSt) (k : Nat) (v : Int)
    (hwf : WFAd ad) (hk : k ∈ ad.subIds) :
    (adStep ad .destroyInj).reg.hasPending = false ∧
    (adStep ad .destroyInj).reg.errors = ad.reg.errors ∧
    adStep (adStep ad .destroyInj) (.next k v) = adStep ad .destroyInj := by
  have htasks : (adStep ad .destroyInj).reg.tasks = [] := by
    show (ad.subIds.foldl destroyOne ad).reg.tasks = []
    exact destroy_fold_tasks ad.subIds ad hwf hwf.2.1
      (fun t ht => hwf.2.2.2.2.1 t ht)
  refine ⟨?_, ?_, ?_⟩
  · rw [Registry.hasPending_false_iff]; exact htasks
  · show (ad.subIds.foldl destroyOne ad).reg.errors = ad.reg.errors
    exact destroy_fold_errors ad.subIds ad hwf (fun j hj => hj)
  · have hclosed : ((ad.subIds.foldl destroyOne ad).subs k).closed = true :=
      destroy_fold_closed k ad.subIds ad hk
    have hact : (ad.subIds.foldl destroyOne ad).active k = false := by
      simp [AdSt.active, hclosed]
    show adStep (ad.subIds.foldl destroyOne ad) (.next k v) = ad.subIds.foldl destroyOne ad
    simp [adStep, hact]

/-- C10 witness -/
theorem c10_destroy_clears_pending_witness :
    let ad := adRun AdSt.init [.subscribe 0, .subscribe 1]
    (adStep ad .destroyInj).reg.hasPending = false ∧
    (adStep ad .destroyInj).reg.errors = ad.reg.errors ∧
    adStep (adStep ad .destroyInj) (.next 0 7) = adStep ad .destroyInj :=
  c10_destroy_clears_pending _ 0 7
    (by exact WFAd_adStep _ (.subscribe 1) (WFAd_adStep _ (.subscribe 0) WFAd_init))
    (by decide)

/-! ## The reactive graph: signals, computeds, effects (spec §3, §4.1–§4.3)

`Modelled from the spec:` the signal/computed/effect reactivity core is not
in the source excerpt (only its documentation and consumers are).  Per the
spec: a signal owns a value and a version that bumps exactly once per write
that actually changes the value; a computed owns a cached value, a version, a
list of producer dependencies with the producers' versions snapshotted at the
time of last read, and a clean/maybeDirty/dirty tri-state, and is recomputed
lazily on read; a write walks consumers marking direct consumers dirty and
transitive ones maybe-dirty (visited-set deduped); reading a computed polls
each recorded producer (recursively refreshing producer computeds) and reuses
the cache iff the computed is not directly dirty and no producer's current
version differs from its snapshot, otherwise reruns the computation inside a
fresh tracking context whose recorded reads fully replace the dependency set.
Computed functions are embedded as a small expression language so that
dependency tracking (including branch-dependent reads) is executable. -/

/-- computed-function bodies: literals, signal reads, computed reads,
addition, and a branch on a condition being zero -/
inductive Expr where
  | lit (n : Int)
  | sigE (s : Nat)
  | compE (j : Nat)
  | add (a b : Expr)
  | ifz (c a b : Expr)
deriving DecidableEq, Repr

/-- a producer reference: a signal or a computed -/
inductive Prod' where
  | sigP (s : Nat)
  | compP (j : Nat)
deriving DecidableEq, Repr

/-- the dirty tri-state of a computed (spec §3, §9) -/
inductive Flag where
  | clean
  | maybeDirty
  | dirty
deriving DecidableEq, Repr

/-- the cache of a computed: last value, its version (bumped only when a
recompute produced a different value), the producer dependencies with their
snapshotted versions, and the dirty flag -/
structure CompCache where
  value : Int
  version : Nat
  deps : List (Prod' × Nat)
  flag : Flag
deriving DecidableEq, Repr

/-- effect bodies used by the spec's scenarios: log a signal's value; log a
signal's value only under a branch condition; read a signal then throw -/
inductive EffBody where
  | logSig (s : Nat)
  | branchLog (c s : Nat)
  | throwB (s : Nat)
deriving DecidableEq, Repr

/-- effect states (spec §4.3); `running` is transient inside a flush step -/
inductive EStatus where
  | idle
  | queued
  | destroyed
deriving DecidableEq, Repr

structure EffectSt where
  body : EffBody
  /-- signal dependencies recorded by the last run (fully replaced each run) -/
  deps : List Nat
  status : EStatus
  dirty : Bool
  /-- pending-task handle held while queued -/
  taskId : Option Nat
  /-- ghost: values logged by runs, in order -/
  runLog : List Int
  /-- ghost: number of body executions -/
  runCount : Nat
deriving DecidableEq, Repr

/-- the whole reactive-core state -/
structure St where
  sigVal : Nat → Int
  sigVer : Nat → Nat
  /-- process-wide clock, bumped on effective writes -/
  clock : Nat
  /-- the (fixed) computed-function program -/
  compExpr : Nat → Expr
  /-- the computed nodes that exist -/
  compIds : List Nat
  comps : Nat → Option CompCache
  /-- ghost: per-computed recompute counter -/
  compCount : Nat → Nat
  effIds : List Nat
  effs : Nat → EffectSt
  reg : Registry
  /-- errors reported to the process-wide handler by failing effect bodies -/
  errors : Nat
  /-- the DEV-mode runaway-flush guard tripped -/
  fatalSched : Bool

/-- specification-level denotation of a computed's expression under a signal
assignment; the bound `i` guards computed references (a well-formed computed
`i` refers only to computeds below `i`, ruling out cycles) -/
def denoteC (ce : Nat → Expr) (sv : Nat → Int) : Nat → Expr → Int
  | _, .lit n => n
  | _, .sigE s => sv s
  | i, .compE j => if _ : j < i then denoteC ce sv j (ce j) else 0
  | i, .add a b => denoteC ce sv i a + denoteC ce sv i b
  | i, .ifz c a b =>
    if denoteC ce sv i c = 0 then denoteC ce sv i a else denoteC ce sv i b
termination_by i e => (i, sizeOf e)

def denoteAt (ce : Nat → Expr) (sv : Nat → Int) (i : Nat) : Int :=
  denoteC ce sv i (ce i)

/-- specification-level list of producers read when evaluating `e` under
`sv` (branch-dependent, like real tracking) -/
def pdeps (ce : Nat → Expr) (sv : Nat → Int) (i : Nat) : Expr → List Prod'
  | .lit _ => []
  | .sigE s => [.sigP s]
  | .compE j => [.compP j]
  | .add a b => pdeps ce sv i a ++ pdeps ce sv i b
  | .ifz c a b =>
    pdeps ce sv i c ++
      (if denoteC ce sv i c = 0 then pdeps ce sv i a else pdeps ce sv i b)

/-- well-formedness bound: every computed reference in the expression is
below `i` -/
def Expr.wfB (i : Nat) : Expr → Bool
  | .lit _ => true
  | .sigE _ => true
  | .compE j => decide (j < i)
  | .add a b => a.wfB i && b.wfB i
  | .ifz c a b => c.wfB i && a.wfB i && b.wfB i

/-- current version of a computed's cache (0 when never computed) -/
def cver (st : St) (j : Nat) : Nat :=
  match st.comps j with
  | some c => c.version
  | none => 0

/-- tracked evaluation of an expression: returns the value, the recorded
dependency list (producer with the version observed at read time), and the
threaded state; `rd` is the computed-read callback -/
def evalT (rd : St → Nat → Int × St) : St → Expr → Int × List (Prod' × Nat) × St
  | st, .lit n => (n, [], st)
  | st, .sigE s => (st.sigVal s, [(.sigP s, st.sigVer s)], st)
  | st, .compE j =>
    let r := rd st j
    (r.1, [(.compP j, cver r.2 j)], r.2)
  | st, .add a b =>
    let ra := evalT rd st a
    let rb := evalT rd ra.2.2 b
    (ra.1 + rb.1, ra.2.1 ++ rb.2.1, rb.2.2)
  | st, .ifz c a b =>
    let rc := evalT rd st c
    if rc.1 = 0 then
      let ra := evalT rd rc.2.2 a
      (ra.1, rc.2.1 ++ ra.2.1, ra.2.2)
    else
      let rb := evalT rd rc.2.2 b
      (rb.1, rc.2.1 ++ rb.2.1, rb.2.2)

/-- poll the recorded producers of a cache: refresh each producer computed
(lazy pull) and report whether any producer's current version differs from
its snapshot (`consumersPolledProducersChanged`) -/
def pollT (rd : St → Nat → Int × St) : St → List (Prod' × Nat) → Bool × St
  | st, [] => (false, st)
  | st, (p, v) :: rest =>
    match p with
    | .sigP s =>
      let r := pollT rd st rest
      ((st.sigVer s != v) || r.1, r.2)
    | .compP j =>
      let rj := rd st j
      let r := pollT rd rj.2 rest
      ((cver rj.2 j != v) || r.1, r.2)

/-- rerun the computed's function inside a fresh tracking context, replacing
its dependency set entirely; bump its version only if the value changed -/
def recomputeC (rd : St → Nat → Int × St) (st : St) (i : Nat) : Int × St :=
  let r := evalT rd st (st.compExpr i)
  let ver : Nat :=
    match r.2.2.comps i with
    | some c => if r.1 = c.value then c.version else c.version + 1
    | none => 1
  (r.1,
    { r.2.2 with
      comps := fun k => if k = i then some ⟨r.1, ver, r.2.1, .clean⟩ else r.2.2.comps k
      compCount := fun k => if k = i then r.2.2.compCount i + 1 else r.2.2.compCount k })

/-- fuelled computed read: recompute when never computed or directly dirty;
otherwise poll the recorded producers and recompute iff some version moved;
otherwise reuse the cache (demoting the flag to clean).  The fuel only
bounds recursion depth; `cread` supplies enough for any well-formed graph. -/
def readCF : Nat → St → Nat → Int × St
  | 0, st, _ => (0, st)
  | fuel + 1, st, i =>
    match st.comps i with
    | none => recomputeC (readCF fuel) st i
    | some c =>
      if c.flag = .dirty then recomputeC (readCF fuel) st i
      else
        let r := pollT (readCF fuel) st c.deps
        if r.1 then recomputeC (readCF fuel) r.2 i
        else
          (c.value,
            { r.2 with
              comps := fun k => if k = i then some { c with flag := .clean }
                else r.2.comps k })

/-- public computed read -/
def cread (st : St) (i : Nat) : Int × St := readCF (i + 1) st i

/-- join of dirty flags (never downgrade) -/
def joinFlag : Flag → Flag → Flag
  | .dirty, _ => .dirty
  | _, .dirty => .dirty
  | .maybeDirty, _ => .maybeDirty
  | _, .maybeDirty => .maybeDirty
  | .clean, .clean => .clean

def depsHaveProd (c : CompCache) (p : Prod') : Bool :=
  c.deps.any (fun d => d.1 = p)

/-- the computed consumers of a producer, resolved through the recorded
dependency edges (the producer-side consumer set, viewed from the consumer
side) -/
def consumersOf (st : St) (p : Prod') : List Nat :=
  st.compIds.filter (fun k =>
    match st.comps k with
    | some c => depsHaveProd c p
    | none => false)

/-- raise a computed's flag (flag-only change) -/
def bumpFlag (st : St) (k : Nat) (f : Flag) : St :=
  { st with
    comps := fun k' => if k' = k then
      (st.comps k').map (fun c => { c with flag := joinFlag c.flag f })
      else st.comps k' }

/-- breadth-first transitive maybe-dirty marking with a visited set (spec
§4.1: diamonds are marked once, never retraversed) -/
def markTrans : Nat → St → List Nat → List Nat → St
  | 0, st, _, _ => st
  | fuel + 1, st, work, visited =>
    match work with
    | [] => st
    | k :: rest =>
      if k ∈ visited then markTrans fuel st rest visited
      else
        let st' := bumpFlag st k .maybeDirty
        markTrans fuel st' (rest ++ consumersOf st' (.compP k)) (k :: visited)

/-- write-side marking: direct computed consumers become dirty, transitive
ones maybe-dirty -/
def markFromSignal (st : St) (s : Nat) : St :=
  let direct := consumersOf st (.sigP s)
  let st₁ := direct.foldl (fun a k => bumpFlag a k .dirty) st
  markTrans ((st₁.compIds.length + 1) * (st₁.compIds.length + 1)) st₁
    (direct.foldl (fun acc k => acc ++ consumersOf st₁ (.compP k)) []) direct

/-- mark an effect dirty and queue it, registering a pending task if it was
idle (coalescing: an already-queued effect is not re-registered); destroyed
effects are never touched -/
def scheduleEffect (st : St) (e : Nat) : St :=
  let eff := st.effs e
  match eff.status with
  | .idle =>
    let r := st.reg.add
    { st with
      reg := r.2
      effs := fun k => if k = e then
        { eff with dirty := true, status := .queued, taskId := some r.1 }
        else st.effs k }
  | .queued =>
    { st with
      effs := fun k => if k = e then { eff with dirty := true } else st.effs k }
  | .destroyed => st

/-- notify the effects whose recorded dependencies contain the written
signal -/
def notifyEffects (st : St) (s : Nat) : St :=
  st.effIds.foldl (fun a e => if s ∈ (a.effs e).deps then scheduleEffect a e else a) st

/-- signal write: no-op when the value is unchanged (default equality);
otherwise store the value, bump the signal's version and the global clock,
mark computed consumers, and schedule affected effects.  No effect runs
here — execution is deferred to the flush. -/
def write (st : St) (s : Nat) (v : Int) : St :=
  if v = st.sigVal s then st
  else
    notifyEffects
      (markFromSignal
        { st with
          sigVal := fun s' => if s' = s then v else st.sigVal s'
          sigVer := fun s' => if s' = s then st.sigVer s' + 1 else st.sigVer s'
          clock := st.clock + 1 } s) s

/-- run an effect body under tracking: returns the recorded signal
dependencies, the optional logged value, and whether the body threw -/
def bodyRun (st : St) : EffBody → List Nat × Option Int × Bool
  | .logSig s => ([s], some (st.sigVal s), false)
  | .branchLog c s =>
    if st.sigVal c = 0 then ([c], none, false)
    else ([c, s], some (st.sigVal s), false)
  | .throwB s => ([s], none, true)

def unregTask (r : Registry) : Option Nat → Registry
  | none => r
  | some t => r.remove t

/-- run one queued effect: execute the body in a tracked context, replace
its dependency set with the reads of this run, return it to idle, remove its
pending task; an uncaught body error is reported to the process-wide handler
(the effect still returns to idle, not destroyed) -/
def runEffect (st : St) (e : Nat) : St :=
  let eff := st.effs e
  if eff.status = .queued then
    let r := bodyRun st eff.body
    { st with
      effs := fun k => if k = e then
        { eff with
          deps := r.1, status := .idle, dirty := false, taskId := none
          runLog := eff.runLog ++ r.2.1.toList, runCount := eff.runCount + 1 }
        else st.effs k
      reg := unregTask st.reg eff.taskId
      errors := st.errors + (if r.2.2 then 1 else 0) }
  else st

/-- one pass over the effects in creation order, running the queued ones -/
def runPass (st : St) : St := st.effIds.foldl runEffect st

def anyQueued (st : St) : Bool :=
  st.effIds.any (fun e => (st.effs e).status = .queued)

/-- drain the queue repeatedly (effects dirtied during the flush run in the
same settle loop) up to the DEV-mode iteration guard -/
def flushLoop : Nat → St → St
  | 0, st => { st with fatalSched := true }
  | fuel + 1, st => if anyQueued st then flushLoop fuel (runPass st) else st

/-- the spec's §9 guard constant: any reasonable bound, documented -/
def flushGuard : Nat := 100

def flush (st : St) : St := flushLoop flushGuard st

/-- create an effect and schedule its initial run -/
def createEffect (st : St) (e : Nat) (b : EffBody) : St :=
  scheduleEffect
    { st with
      effIds := st.effIds ++ [e]
      effs := fun k => if k = e then ⟨b, [], .idle, false, none, [], 0⟩ else st.effs k } e

/-- destroy an effect: idempotent (a second call is a no-op); removes all
dependency edges so future writes never touch it, removes the pending task,
and prevents any already-queued run from executing -/
def destroyEff (st : St) (e : Nat) : St :=
  let eff := st.effs e
  if eff.status = .destroyed then st
  else
    { st with
      effs := fun k => if k = e then
        { eff with status := .destroyed, deps := [], dirty := false, taskId := none }
        else st.effs k
      reg := unregTask st.reg eff.taskId }

/-- the operations a client of the core can perform -/
inductive Op where
  | writeS (s : Nat) (v : Int)
  | readC (i : Nat)
  | flushO
  | createE (e : Nat) (b : EffBody)
  | destroyE (e : Nat)
deriving DecidableEq, Repr

def runOps : St → List Op → St
  | st, [] => st
  | st, op :: rest =>
    runOps
      (match op with
       | .writeS s v => write st s v
       | .readC i => (cread st i).2
       | .flushO => flush st
       | .createE e b => createEffect st e b
       | .destroyE e => destroyEff st e) rest

def initSt (ce : Nat → Expr) (cids : List Nat) (sv : Nat → Int) : St :=
  { sigVal := sv, sigVer := fun _ => 0, clock := 0
    compExpr := ce, compIds := cids, comps := fun _ => none, compCount := fun _ => 0
    effIds := [], effs := fun _ => ⟨.logSig 0, [], .idle, false, none, [], 0⟩
    reg := Registry.init, errors := 0, fatalSched := false }

theorem bodyRun_congr (a b : St) (h : a.sigVal = b.sigVal) (bd : EffBody) :
    bodyRun a bd = bodyRun b bd := by
  cases bd <;> simp [bodyRun, h]

theorem runEffect_not_queued {st : St} {e : Nat} (h : ¬(st.effs e).status = .queued) :
    runEffect st e = st := by
  simp [runEffect, h]

theorem runEffect_effs_other (st : St) {e j : Nat} (hne : j ≠ e) :
    (runEffect st e).effs j = st.effs j := by
  by_cases h : (st.effs e).status = .queued
  · simp [runEffect, h, hne]
  · rw [runEffect_not_queued h]

theorem runEffect_queued {st : St} {e : Nat} (h : (st.effs e).status = .queued) :
    (runEffect st e).effs e =
      { st.effs e with
        deps := (bodyRun st (st.effs e).body).1
        status := .idle
        dirty := false
        taskId := none
        runLog := (st.effs e).runLog ++ (bodyRun st (st.effs e).body).2.1.toList
        runCount := (st.effs e).runCount + 1 } := by
  simp [runEffect, h]

theorem runEffect_core (st : St) (e : Nat) :
    (runEffect st e).sigVal = st.sigVal ∧
    (runEffect st e).sigVer = st.sigVer ∧
    (runEffect st e).comps = st.comps ∧
    (runEffect st e).compCount = st.compCount ∧
    (runEffect st e).compExpr = st.compExpr ∧
    (runEffect st e).compIds = st.compIds ∧
    (runEffect st e).effIds = st.effIds ∧
    (runEffect st e).clock = st.clock ∧
    (runEffect st e).fatalSched = st.fatalSched := by
  by_cases h : (st.effs e).status = .queued
  · simp [runEffect, h]
  · rw [runEffect_not_queued h]
    exact ⟨rfl, rfl, rfl, rfl, rfl, rfl, rfl, rfl, rfl⟩

theorem runEffect_self_unqueued (st : St) (e : Nat) :
    ((runEffect st e).effs e).status ≠ .queued := by
  by_cases h : (st.effs e).status = .queued
  · rw [runEffect_queued h]; simp
  · rw [runEffect_not_queued h]; exact h

theorem foldRun_sigVal : ∀ (l : List Nat) (st : St),
    (l.foldl runEffect st).sigVal = st.sigVal := by
  intro l
  induction l with
  | nil => intro st; rfl
  | cons x xs ih =>
    intro st
    rw [List.foldl_cons, ih, (runEffect_core st x).1]

theorem foldRun_effIds : ∀ (l : List Nat) (st : St),
    (l.foldl runEffect st).effIds = st.effIds := by
  intro l
  induction l with
  | nil => intro st; rfl
  | cons x xs ih =>
    intro st
    rw [List.foldl_cons, ih, (runEffect_core st x).2.2.2.2.2.2.1]

theorem foldRun_comps : ∀ (l : List Nat) (st : St),
    (l.foldl runEffect st).comps = st.comps := by
  intro l
  induction l with
  | nil => intro st; rfl
  | cons x xs ih =>
    intro st
    rw [List.foldl_cons, ih, (runEffect_core st x).2.2.1]

theorem foldRun_pres : ∀ (l : List Nat) (st : St) (e : Nat),
    ((st.effs e).status = .queued → False) →
    ((l.foldl runEffect st).effs e) = st.effs e := by
  intro l
  induction l with
  | nil => intro st e _; rfl
  | cons x xs ih =>
    intro st e h
    rw [List.foldl_cons]
    by_cases he : x = e
    · rw [he, runEffect_not_queued (fun hx => h hx)]
      exact ih st e h
    · have hx : (runEffect st x).effs e = st.effs e :=
        runEffect_effs_other st (fun hj => he hj.symm)
      rw [ih (runEffect st x) e (fun hq => h (by rw [hx] at hq; exact hq)), hx]

theorem foldRun_run : ∀ (l : List Nat) (st : St) (e : Nat), e ∈ l →
    (st.effs e).status = .queued →
    ((l.foldl runEffect st).effs e) =
      { st.effs e with
        deps := (bodyRun st (st.effs e).body).1
        status := .idle
        dirty := false
        taskId := none
        runLog := (st.effs e).runLog ++ (bodyRun st (st.effs e).body).2.1.toList
        runCount := (st.effs e).runCount + 1 } := by
  intro l
  induction l with
  | nil => intro st e h; cases h
  | cons x xs ih =>
    intro st e hmem hq
    rw [List.foldl_cons]
    by_cases he : x = e
    · subst he
      have h1 := runEffect_queued hq
      have h2 : ((runEffect st x).effs x).status = .queued → False := by
        rw [h1]; intro hx; cases hx
      rw [foldRun_pres xs (runEffect st x) x h2, h1]
    · have hx : (runEffect st x).effs e = st.effs e :=
        runEffect_effs_other st (fun hj => he hj.symm)
      have hmem' : e ∈ xs := by
        rcases List.mem_cons.mp hmem with h | h
        · exact absurd h.symm he
        · exact h
      rw [ih (runEffect st x) e hmem' (by rw [hx]; exact hq), hx,
        bodyRun_congr (runEffect st x) st (runEffect_core st x).1]

theorem foldRun_unqueued : ∀ (l : List Nat) (st : St) (e : Nat), e ∈ l →
    ((l.foldl runEffect st).effs e).status ≠ .queued := by
  intro l
  induction l with
  | nil => intro st e h; cases h
  | cons x xs ih =>
    intro st e hmem
    rw [List.foldl_cons]
    by_cases he : x = e
    · subst he
      by_cases hmem' : x ∈ xs
      · exact ih _ x hmem'
      · rw [foldRun_pres xs (runEffect st x) x
          (fun hq => runEffect_self_unqueued st x hq)]
        exact runEffect_self_unqueued st x
    · rcases List.mem_cons.mp hmem with h | h
      · exact absurd h.symm he
      · exact ih _ e h

theorem anyQueued_runPass (st : St) : anyQueued (runPass st) = false := by
  unfold anyQueued runPass
  rw [List.any_eq_false]
  intro e hmem
  rw [foldRun_effIds st.effIds st] at hmem
  simpa using foldRun_unqueued st.effIds st e hmem

theorem flush_eq_runPass (st : St) (h : anyQueued st = true) : flush st = runPass st := by
  show flushLoop flushGuard st = runPass st
  have : flushGuard = 98 + 1 + 1 := rfl
  rw [this]
  show (if anyQueued st = true then flushLoop (98 + 1) (runPass st) else st) = runPass st
  rw [if_pos h]
  show (if anyQueued (runPass st) = true then flushLoop 98 (runPass (runPass st))
    else runPass st) = runPass st
  rw [anyQueued_runPass st]
  simp

theorem flush_id (st : St) (h : anyQueued st = false) : flush st = st := by
  show flushLoop flushGuard st = st
  have : flushGuard = 99 + 1 := rfl
  rw [this]
  show (if anyQueued st = true then flushLoop 99 (runPass st) else st) = st
  rw [h]
  simp

theorem scheduleEffect_effs_other (st : St) {e j : Nat} (hne : j ≠ e) :
    (scheduleEffect st e).effs j = st.effs j := by
  cases h : (st.effs e).status <;> simp [scheduleEffect, h, hne]

theorem scheduleEffect_fields (st : St) (e j : Nat) :
    ((scheduleEffect st e).effs j).deps = (st.effs j).deps ∧
    ((scheduleEffect st e).effs j).body = (st.effs j).body ∧
    ((scheduleEffect st e).effs j).runLog = (st.effs j).runLog ∧
    ((scheduleEffect st e).effs j).runCount = (st.effs j).runCount := by
  by_cases hne : j = e
  · subst hne
    cases h : (st.effs j).status <;> simp [scheduleEffect, h]
  · rw [scheduleEffect_effs_other st hne]
    exact ⟨rfl, rfl, rfl, rfl⟩

theorem scheduleEffect_core (st : St) (e : Nat) :
    (scheduleEffect st e).sigVal = st.sigVal ∧
    (scheduleEffect st e).sigVer = st.sigVer ∧
    (scheduleEffect st e).comps = st.comps ∧
    (scheduleEffect st e).compCount = st.compCount ∧
    (scheduleEffect st e).compExpr = st.compExpr ∧
    (scheduleEffect st e).compIds = st.compIds ∧
    (scheduleEffect st e).effIds = st.effIds ∧
    (scheduleEffect st e).errors = st.errors := by
  cases h : (st.effs e).status <;> simp [scheduleEffect, h]

theorem scheduleEffect_queues (st : St) {e : Nat}
    (h : (st.effs e).status ≠ .destroyed) :
    ((scheduleEffect st e).effs e).status = .queued := by
  cases hs : (st.effs e).status
  · simp [scheduleEffect, hs]
  · simp [scheduleEffect, hs]
  · exact absurd hs h

theorem scheduleEffect_queued_stays (st : St) (e j : Nat)
    (h : (st.effs j).status = .queued) :
    ((scheduleEffect st e).effs j).status = .queued := by
  by_cases hne : j = e
  · subst hne
    exact scheduleEffect_queues st (by rw [h]; intro hx; cases hx)
  · rw [scheduleEffect_effs_other st hne]; exact h

theorem notifyStep_def (a : St) (s e : Nat) :
    (if s ∈ (a.effs e).deps then scheduleEffect a e else a) = a ∨
    (if s ∈ (a.effs e).deps then scheduleEffect a e else a) = scheduleEffect a e := by
  by_cases h : s ∈ (a.effs e).deps
  · right; rw [if_pos h]
  · left; rw [if_neg h]

theorem notifyFold_fields (s : Nat) : ∀ (l : List Nat) (st : St) (j : Nat),
    ((l.foldl (fun a e => if s ∈ (a.effs e).deps then scheduleEffect a e else a) st).effs j).deps
      = (st.effs j).deps ∧
    ((l.foldl (fun a e => if s ∈ (a.effs e).deps then scheduleEffect a e else a) st).effs j).body
      = (st.effs j).body ∧
    ((l.foldl (fun a e => if s ∈ (a.effs e).deps then scheduleEffect a e else a) st).effs j).runLog
      = (st.effs j).runLog ∧
    ((l.foldl (fun a e => if s ∈ (a.effs e).deps then scheduleEffect a e else a) st).effs j).runCount
      = (st.effs j).runCount := by
  intro l
  induction l with
  | nil => intro st j; exact ⟨rfl, rfl, rfl, rfl⟩
  | cons x xs ih =>
    intro st j
    rw [List.foldl_cons]
    obtain ⟨h1, h2, h3, h4⟩ := ih (if s ∈ (st.effs x).deps then scheduleEffect st x else st) j
    rcases notifyStep_def st s x with h | h <;>
      rw [h] at h1 h2 h3 h4 ⊢
    · exact ⟨h1, h2, h3, h4⟩
    · obtain ⟨g1, g2, g3, g4⟩ := scheduleEffect_fields st x j
      exact ⟨h1.trans g1, h2.trans g2, h3.trans g3, h4.trans g4⟩

theorem notifyFold_core (s : Nat) : ∀ (l : List Nat) (st : St),
    (l.foldl (fun a e => if s ∈ (a.effs e).deps then scheduleEffect a e else a) st).sigVal
      = st.sigVal ∧
    (l.foldl (fun a e => if s ∈ (a.effs e).deps then scheduleEffect a e else a) st).sigVer
      = st.sigVer ∧
    (l.foldl (fun a e => if s ∈ (a.effs e).deps then scheduleEffect a e else a) st).comps
      = st.comps ∧
    (l.foldl (fun a e => if s ∈ (a.effs e).deps then scheduleEffect a e else a) st).compCount
      = st.compCount ∧
    (l.foldl (fun a e => if s ∈ (a.effs e).deps then scheduleEffect a e else a) st).compExpr
      = st.compExpr ∧
    (l.foldl (fun a e => if s ∈ (a.effs e).deps then scheduleEffect a e else a) st).compIds
      = st.compIds ∧
    (l.foldl (fun a e => if s ∈ (a.effs e).deps then scheduleEffect a e else a) st).effIds
      = st.effIds ∧
    (l.foldl (fun a e => if s ∈ (a.effs e).deps then scheduleEffect a e else a) st).errors
      = st.errors := by
  intro l
  induction l with
  | nil => intro st; exact ⟨rfl, rfl, rfl, rfl, rfl, rfl, rfl, rfl⟩
  | cons x xs ih =>
    intro st
    rw [List.foldl_cons]
    obtain ⟨h1, h2, h3, h4, h5, h6, h7, h8⟩ :=
      ih (if s ∈ (st.effs x).deps then scheduleEffect st x else st)
    rcases notifyStep_def st s x with h | h <;>
      rw [h] at h1 h2 h3 h4 h5 h6 h7 h8 ⊢
    · exact ⟨h1, h2, h3, h4, h5, h6, h7, h8⟩
    · obtain ⟨g1, g2, g3, g4, g5, g6, g7, g8⟩ := scheduleEffect_core st x
      exact ⟨h1.trans g1, h2.trans g2, h3.trans g3, h4.trans g4, h5.trans g5,
        h6.trans g6, h7.trans g7, h8.trans g8⟩

theorem notifyFold_queued_stays (s : Nat) : ∀ (l : List Nat) (st : St) (j : Nat),
    (st.effs j).status = .queued →
    ((l.foldl (fun a e => if s ∈ (a.effs e).deps then scheduleEffect a e else a) st).effs j).status
      = .queued := by
  intro l
  induction l with
  | nil => intro st j h; exact h
  | cons x xs ih =>
    intro st j h
    rw [List.foldl_cons]
    refine ih _ j ?_
    rcases notifyStep_def st s x with hx | hx <;> rw [hx]
    · exact h
    · exact scheduleEffect_queued_stays st x j h

theorem notifyFold_queues (s : Nat) : ∀ (l : List Nat) (st : St) (e : Nat), e ∈ l →
    s ∈ (st.effs e).deps → (st.effs e).status ≠ .destroyed →
    ((l.foldl (fun a e => if s ∈ (a.effs e).deps then scheduleEffect a e else a) st).effs e).status
      = .queued := by
  intro l
  induction l with
  | nil => intro st e h; cases h
  | cons x xs ih =>
    intro st e hmem hdep hnd
    rw [List.foldl_cons]
    by_cases he : x = e
    · rw [he, if_pos hdep]
      exact notifyFold_queued_stays s xs _ e (scheduleEffect_queues st hnd)
    · have hne : e ≠ x := fun hx => he hx.symm
      have hpres : (if s ∈ (st.effs x).deps then scheduleEffect st x else st).effs e
          = st.effs e := by
        rcases notifyStep_def st s x with hx | hx <;> rw [hx]
        · exact scheduleEffect_effs_other st hne
      rcases List.mem_cons.mp hmem with h | h
      · exact absurd h.symm he
      · exact ih _ e h (by rw [hpres]; exact hdep) (by rw [hpres]; exact hnd)

theorem notifyFold_nodep (s : Nat) : ∀ (l : List Nat) (st : St) (e : Nat),
    s ∉ (st.effs e).deps →
    ((l.foldl (fun a e => if s ∈ (a.effs e).deps then scheduleEffect a e else a) st).effs e)
      = st.effs e := by
  intro l
  induction l with
  | nil => intro st e _; rfl
  | cons x xs ih =>
    intro st e hdep
    rw [List.foldl_cons]
    by_cases he : x = e
    · rw [he, if_neg hdep]
      exact ih st e hdep
    · have hne : e ≠ x := fun hx => he hx.symm
      have hpres : (if s ∈ (st.effs x).deps then scheduleEffect st x else st).effs e
          = st.effs e := by
        rcases notifyStep_def st s x with hx | hx <;> rw [hx]
        · exact scheduleEffect_effs_other st hne
      rw [ih _ e (by rw [hpres]; exact hdep), hpres]

theorem bumpFlag_frame (st : St) (k : Nat) (f : Flag) :
    (bumpFlag st k f).sigVal = st.sigVal ∧
    (bumpFlag st k f).sigVer = st.sigVer ∧
    (bumpFlag st k f).effs = st.effs ∧
    (bumpFlag st k f).effIds = st.effIds ∧
    (bumpFlag st k f).reg = st.reg ∧
    (bumpFlag st k f).errors = st.errors ∧
    (bumpFlag st k f).compCount = st.compCount ∧
    (bumpFlag st k f).compExpr = st.compExpr ∧
    (bumpFlag st k f).compIds = st.compIds :=
  ⟨rfl, rfl, rfl, rfl, rfl, rfl, rfl, rfl, rfl⟩

theorem markTrans_frame : ∀ (fuel : Nat) (st : St) (w vis : List Nat),
    (markTrans fuel st w vis).sigVal = st.sigVal ∧
    (markTrans fuel st w vis).sigVer = st.sigVer ∧
    (markTrans fuel st w vis).effs = st.effs ∧
    (markTrans fuel st w vis).effIds = st.effIds ∧
    (markTrans fuel st w vis).reg = st.reg ∧
    (markTrans fuel st w vis).errors = st.errors := by
  intro fuel
  induction fuel with
  | zero => intro st w vis; exact ⟨rfl, rfl, rfl, rfl, rfl, rfl⟩
  | succ n ih =>
    intro st w vis
    match w with
    | [] => exact ⟨rfl, rfl, rfl, rfl, rfl, rfl⟩
    | k :: rest =>
      show ((if k ∈ vis then markTrans n st rest vis else _).sigVal = st.sigVal) ∧ _
      by_cases hk : k ∈ vis
      · simp only [markTrans, hk, if_true]
        exact ih st rest vis
      · simp only [markTrans, hk, if_false]
        obtain ⟨i1, i2, i3, i4, i5, i6⟩ := ih (bumpFlag st k .maybeDirty)
          (rest ++ consumersOf (bumpFlag st k .maybeDirty) (.compP k)) (k :: vis)
        exact ⟨i1, i2, i3, i4, i5, i6⟩

theorem dirtyFold_frame : ∀ (l : List Nat) (st : St),
    (l.foldl (fun a k => bumpFlag a k .dirty) st).sigVal = st.sigVal ∧
    (l.foldl (fun a k => bumpFlag a k .dirty) st).sigVer = st.sigVer ∧
    (l.foldl (fun a k => bumpFlag a k .dirty) st).effs = st.effs ∧
    (l.foldl (fun a k => bumpFlag a k .dirty) st).effIds = st.effIds ∧
    (l.foldl (fun a k => bumpFlag a k .dirty) st).reg = st.reg ∧
    (l.foldl (fun a k => bumpFlag a k .dirty) st).errors = st.errors := by
  intro l
  induction l with
  | nil => intro st; exact ⟨rfl, rfl, rfl, rfl, rfl, rfl⟩
  | cons x xs ih =>
    intro st
    rw [List.foldl_cons]
    exact ih (bumpFlag st x .dirty)

theorem markFromSignal_frame (st : St) (s : Nat) :
    (markFromSignal st s).sigVal = st.sigVal ∧
    (markFromSignal st s).sigVer = st.sigVer ∧
    (markFromSignal st s).effs = st.effs ∧
    (markFromSignal st s).effIds = st.effIds ∧
    (markFromSignal st s).reg = st.reg ∧
    (markFromSignal st s).errors = st.errors := by
  simp only [markFromSignal]
  refine ⟨?_, ?_, ?_, ?_, ?_, ?_⟩
  · rw [(markTrans_frame _ _ _ _).1, (dirtyFold_frame _ _).1]
  · rw [(markTrans_frame _ _ _ _).2.1, (dirtyFold_frame _ _).2.1]
  · rw [(markTrans_frame _ _ _ _).2.2.1, (dirtyFold_frame _ _).2.2.1]
  · rw [(markTrans_frame _ _ _ _).2.2.2.1, (dirtyFold_frame _ _).2.2.2.1]
  · rw [(markTrans_frame _ _ _ _).2.2.2.2.1, (dirtyFold_frame _ _).2.2.2.2.1]
  · rw [(markTrans_frame _ _ _ _).2.2.2.2.2, (dirtyFold_frame _ _).2.2.2.2.2]

theorem write_noop {st : St} {s : Nat} {v : Int} (h : v = st.sigVal s) :
    write st s v = st := by
  simp [write, h]

theorem write_eff_fields (st : St) (s : Nat) (v : Int) (e : Nat) :
    ((write st s v).effs e).deps = (st.effs e).deps ∧
    ((write st s v).effs e).body = (st.effs e).body ∧
    ((write st s v).effs e).runLog = (st.effs e).runLog ∧
    ((write st s v).effs e).runCount = (st.effs e).runCount := by
  by_cases h : v = st.sigVal s
  · rw [write_noop h]
    exact ⟨rfl, rfl, rfl, rfl⟩
  · simp only [write, if_neg h, notifyEffects]
    obtain ⟨f1, f2, f3, f4⟩ := notifyFold_fields s _ _ e
    rw [f1, f2, f3, f4, (markFromSignal_frame _ s).2.2.1]
    exact ⟨rfl, rfl, rfl, rfl⟩

theorem write_core (st : St) (s : Nat) (v : Int) :
    (write st s v).effIds = st.effIds ∧
    (write st s v).sigVal s = v := by
  by_cases h : v = st.sigVal s
  · rw [write_noop h]
    exact ⟨rfl, h.symm⟩
  · simp only [write, if_neg h, notifyEffects]
    constructor
    · rw [(notifyFold_core s _ _).2.2.2.2.2.2.1, (markFromSignal_frame _ s).2.2.2.1]
    · rw [(notifyFold_core s _ _).1, (markFromSignal_frame _ s).1]
      simp

theorem write_status_queues (st : St) (s : Nat) (v : Int) (e : Nat)
    (he : e ∈ st.effIds) (hdep : s ∈ (st.effs e).deps)
    (hnd : (st.effs e).status ≠ .destroyed) (hch : ¬v = st.sigVal s) :
    ((write st s v).effs e).status = .queued := by
  simp only [write, if_neg hch, notifyEffects]
  have heff : (markFromSignal
      { st with
        sigVal := fun s' => if s' = s then v else st.sigVal s'
        sigVer := fun s' => if s' = s then st.sigVer s' + 1 else st.sigVer s'
        clock := st.clock + 1 } s).effs = st.effs := (markFromSignal_frame _ s).2.2.1
  have hids : (markFromSignal
      { st with
        sigVal := fun s' => if s' = s then v else st.sigVal s'
        sigVer := fun s' => if s' = s then st.sigVer s' + 1 else st.sigVer s'
        clock := st.clock + 1 } s).effIds = st.effIds := (markFromSignal_frame _ s).2.2.2.1
  refine notifyFold_queues s _ _ e ?_ ?_ ?_
  · rw [hids]; exact he
  · rw [heff]; exact hdep
  · rw [heff]; exact hnd

theorem write_queued_stays (st : St) (s : Nat) (v : Int) (e : Nat)
    (h : (st.effs e).status = .queued) :
    ((write st s v).effs e).status = .queued := by
  by_cases hch : v = st.sigVal s
  · rw [write_noop hch]; exact h
  · simp only [write, if_neg hch, notifyEffects]
    refine notifyFold_queued_stays s _ _ e ?_
    rw [(markFromSignal_frame _ s).2.2.1]
    exact h

theorem write_frame_eff (st : St) (s : Nat) (v : Int) (e : Nat)
    (hdep : s ∉ (st.effs e).deps) :
    (write st s v).effs e = st.effs e := by
  by_cases hch : v = st.sigVal s
  · rw [write_noop hch]
  · simp only [write, if_neg hch, notifyEffects]
    rw [notifyFold_nodep s _ _ e (by rw [(markFromSignal_frame _ s).2.2.1]; exact hdep),
      (markFromSignal_frame _ s).2.2.1]

theorem anyQueued_of (st : St) (e : Nat) (he : e ∈ st.effIds)
    (h : (st.effs e).status = .queued) : anyQueued st = true := by
  simp only [anyQueued, List.any_eq_true]
  exact ⟨e, he, by simp [h]⟩

theorem writeFold_inv (s e : Nat) : ∀ (vs : List Int) (a : St),
    (a.effs e).status = .queued →
    ((vs.foldl (fun x u => write x s u) a).effs e).status = .queued ∧
    ((vs.foldl (fun x u => write x s u) a).effs e).deps = (a.effs e).deps ∧
    ((vs.foldl (fun x u => write x s u) a).effs e).body = (a.effs e).body ∧
    ((vs.foldl (fun x u => write x s u) a).effs e).runLog = (a.effs e).runLog ∧
    ((vs.foldl (fun x u => write x s u) a).effs e).runCount = (a.effs e).runCount ∧
    (vs.foldl (fun x u => write x s u) a).effIds = a.effIds ∧
    (vs.foldl (fun x u => write x s u) a).sigVal s = vs.getLastD (a.sigVal s) := by
  intro vs
  induction vs with
  | nil =>
    intro a h
    exact ⟨h, rfl, rfl, rfl, rfl, rfl, rfl⟩
  | cons u rest ih =>
    intro a h
    rw [List.foldl_cons]
    obtain ⟨i1, i2, i3, i4, i5, i6, i7⟩ := ih (write a s u) (write_queued_stays a s u e h)
    obtain ⟨w1, w2, w3, w4⟩ := write_eff_fields a s u e
    refine ⟨i1, i2.trans w1, i3.trans w2, i4.trans w3, i5.trans w4,
      i6.trans (write_core a s u).1, ?_⟩
    rw [i7, (write_core a s u).2, List.getLastD_cons]

/-- C3: effect scheduling coalesces writes and never runs effects inside a
write.  (i) A write never executes any effect body synchronously (run logs
and run counts are untouched).  (ii) For any N ≥ 1 consecutive writes to an
idle logging effect's dependency (the first of which changes the value),
the next flush runs the effect exactly once, and the single run observes the
final written value.  (iii) The spec's concrete scenario: `count = 0`, the
effect logs `count()`; after the initial run, `count.set(1)` then
`count.set(2)` before a flush yield, after the flush, a log `[0, 2]`
containing exactly one entry `2`, from exactly one additional run. -/
theorem c3_effect_coalescing :
    (∀ (st : St) (s : Nat) (v : Int) (e : Nat),
      ((write st s v).effs e).runLog = (st.effs e).runLog ∧
      ((write st s v).effs e).runCount = (st.effs e).runCount) ∧
    (∀ (st : St) (s e : Nat) (v₀ : Int) (vs : List Int),
      e ∈ st.effIds → (st.effs e).body = .logSig s → (st.effs e).deps = [s] →
      (st.effs e).status = .idle → ¬v₀ = st.sigVal s →
      ((flush ((v₀ :: vs).foldl (fun x u => write x s u) st)).effs e).runCount
        = (st.effs e).runCount + 1 ∧
      ((flush ((v₀ :: vs).foldl (fun x u => write x s u) st)).effs e).runLog
        = (st.effs e).runLog ++ [vs.getLastD v₀] ∧
      ((flush ((v₀ :: vs).foldl (fun x u => write x s u) st)).effs e).status = .idle) ∧
    ((runOps (initSt (fun _ => Expr.lit 0) [] (fun _ => 0))
        [.createE 0 (.logSig 0), .flushO, .writeS 0 1, .writeS 0 2, .flushO]).effs 0).runLog
      = [0, 2] ∧
    (((runOps (initSt (fun _ => Expr.lit 0) [] (fun _ => 0))
        [.createE 0 (.logSig 0), .flushO, .writeS 0 1, .writeS 0 2, .flushO]).effs 0).runLog.count 2)
      = 1 ∧
    ((runOps (initSt (fun _ => Expr.lit 0) [] (fun _ => 0))
        [.createE 0 (.logSig 0), .flushO, .writeS 0 1, .writeS 0 2, .flushO]).effs 0).runCount
      = 2 := by
  refine ⟨?_, ?_, by decide, by decide, by decide⟩
  · intro st s v e
    exact ⟨(write_eff_fields st s v e).2.2.1, (write_eff_fields st s v e).2.2.2⟩
  · intro st s e v₀ vs he hbody hdeps hidle hch
    rw [List.foldl_cons]
    have hq0 : ((write st s v₀).effs e).status = .queued :=
      write_status_queues st s v₀ e he (by rw [hdeps]; exact List.mem_singleton.mpr rfl)
        (by rw [hidle]; intro hx; cases hx) hch
    obtain ⟨i1, i2, i3, i4, i5, i6, i7⟩ := writeFold_inv s e vs (write st s v₀) hq0
    obtain ⟨w1, w2, w3, w4⟩ := write_eff_fields st s v₀ e
    set w := vs.foldl (fun x u => write x s u) (write st s v₀) with hw
    have hwe : e ∈ w.effIds := by rw [i6, (write_core st s v₀).1]; exact he
    have hflush : flush w = runPass w := flush_eq_runPass w (anyQueued_of w e hwe i1)
    have hrun := foldRun_run w.effIds w e hwe i1
    have hbodyw : (w.effs e).body = .logSig s := by rw [i3, w2, hbody]
    have hvals : w.sigVal s = vs.getLastD v₀ := by
      rw [i7, (write_core st s v₀).2]
    rw [hflush]
    show ((runPass w).effs e).runCount = _ ∧ ((runPass w).effs e).runLog = _ ∧
      ((runPass w).effs e).status = _
    unfold runPass
    rw [hrun]
    refine ⟨?_, ?_, rfl⟩
    · show (w.effs e).runCount + 1 = (st.effs e).runCount + 1
      rw [i5, w4]
    · show (w.effs e).runLog ++ (bodyRun w (w.effs e).body).2.1.toList
        = (st.effs e).runLog ++ [vs.getLastD v₀]
      rw [i4, w3, hbodyw]
      show (st.effs e).runLog ++ [w.sigVal s] = _
      rw [hvals]

/-- C3 witness -/
theorem c3_effect_coalescing_witness :
    let st := runOps (initSt (fun _ => Expr.lit 0) [] (fun _ => 0))
      [.createE 0 (.logSig 0), .flushO]
    ((flush (([1, 2] : List Int).foldl (fun x u => write x 0 u) st)).effs 0).runCount
      = (st.effs 0).runCount + 1 ∧
    ((flush (([1, 2] : List Int).foldl (fun x u => write x 0 u) st)).effs 0).runLog
      = (st.effs 0).runLog ++ [([2] : List Int).getLastD 1] ∧
    ((flush (([1, 2] : List Int).foldl (fun x u => write x 0 u) st)).effs 0).status = .idle :=
  c3_effect_coalescing.2.1 _ 0 0 1 [2]
    (by decide) (by decide) (by decide) (by decide) (by decide)

theorem writeFold_frame (s e : Nat) : ∀ (vs : List Int) (a : St),
    s ∉ (a.effs e).deps →
    (vs.foldl (fun x u => write x s u) a).effs e = a.effs e := by
  intro vs
  induction vs with
  | nil => intro a _; rfl
  | cons u rest ih =>
    intro a hdep
    rw [List.foldl_cons]
    have hw := write_frame_eff a s u e hdep
    rw [ih (write a s u) (by rw [hw]; exact hdep), hw]

/-- C4: dependency edges recorded by an effect run fully replace the
previous edge set.  If an effect reads producer `s` only under a branch
condition on signal `c`, and the condition has flipped to false by the time
the queued effect re-runs, the flush re-records only `[c]` (the stale edge
to `s` is dropped), and thereafter any sequence of writes to `s` leaves the
effect's entire state untouched — it is neither re-dirtied nor scheduled. -/
theorem c4_dependency_pruning (st : St) (e c s : Nat)
    (hcs : c ≠ s)
    (he : e ∈ st.effIds)
    (hbody : (st.effs e).body = .branchLog c s)
    (hq : (st.effs e).status = .queued)
    (hcond : st.sigVal c = 0) :
    ((flush st).effs e).deps = [c] ∧
    ((flush st).effs e).status = .idle ∧
    ((flush st).effs e).dirty = false ∧
    (∀ (vs : List Int),
      (vs.foldl (fun x u => write x s u) (flush st)).effs e = (flush st).effs e) := by
  have hflush : flush st = runPass st := flush_eq_runPass st (anyQueued_of st e he hq)
  have hrun := foldRun_run st.effIds st e he hq
  have hbr : (bodyRun st (st.effs e).body).1 = [c] := by
    rw [hbody]
    simp [bodyRun, hcond]
  have hdeps : ((flush st).effs e).deps = [c] := by
    rw [hflush]
    show ((runPass st).effs e).deps = [c]
    unfold runPass
    rw [hrun]
    exact hbr
  refine ⟨hdeps, ?_, ?_, ?_⟩
  · rw [hflush]
    show ((runPass st).effs e).status = .idle
    unfold runPass
    rw [hrun]
  · rw [hflush]
    show ((runPass st).effs e).dirty = false
    unfold runPass
    rw [hrun]
  · intro vs
    refine writeFold_frame s e vs (flush st) ?_
    rw [hdeps]
    simp [List.mem_singleton]
    exact fun hx => hcs hx.symm

/-- C4 witness -/
theorem c4_dependency_pruning_witness :
    let st := runOps (initSt (fun _ => Expr.lit 0) [] (fun n => if n = 1 then 5 else 0))
      [.createE 0 (.branchLog 1 2), .flushO, .writeS 1 0]
    ((flush st).effs 0).deps = [1] ∧
    ((flush st).effs 0).status = .idle ∧
    ((flush st).effs 0).dirty = false ∧
    (∀ (vs : List Int),
      (vs.foldl (fun x u => write x 2 u) (flush st)).effs 0 = (flush st).effs 0) :=
  c4_dependency_pruning _ 0 1 2 (by decide) (by decide) (by decide) (by decide) (by decide)

theorem destroyEff_destroyed {st : St} {e : Nat} (h : (st.effs e).status = .destroyed) :
    destroyEff st e = st := by
  simp [destroyEff, h]

theorem destroyEff_status (st : St) (e : Nat) :
    ((destroyEff st e).effs e).status = .destroyed := by
  by_cases h : (st.effs e).status = .destroyed
  · rw [destroyEff_destroyed h]; exact h
  · simp [destroyEff, h]

theorem destroyEff_runCount (st : St) (e : Nat) :
    ((destroyEff st e).effs e).runCount = (st.effs e).runCount := by
  by_cases h : (st.effs e).status = .destroyed
  · rw [destroyEff_destroyed h]
  · simp [destroyEff, h]

theorem flushLoop_destroyed : ∀ (n : Nat) (st : St) (e : Nat),
    (st.effs e).status = .destroyed →
    (flushLoop n st).effs e = st.effs e := by
  intro n
  induction n with
  | zero => intro st e _; rfl
  | succ m ih =>
    intro st e h
    show (if anyQueued st = true then flushLoop m (runPass st) else st).effs e = st.effs e
    by_cases hq : anyQueued st = true
    · rw [if_pos hq]
      have hpres : (runPass st).effs e = st.effs e := by
        unfold runPass
        exact foldRun_pres st.effIds st e (fun hx => by rw [h] at hx; cases hx)
      rw [ih (runPass st) e (by rw [hpres]; exact h), hpres]
    · rw [if_neg hq]

/-- C5: effect destruction is idempotent and final.  Destroying an
already-destroyed effect is a total no-op returning the state unchanged
(scheduler, graph, registry — everything), so a second `destroy()` equals the
first; and after a destroy, a flush never executes the effect's
already-queued run (its run count can never move again) and the effect stays
destroyed. -/
theorem c5_destroy_idempotent :
    (∀ (st : St) (e : Nat), (st.effs e).status = .destroyed → destroyEff st e = st) ∧
    (∀ (st : St) (e : Nat), destroyEff (destroyEff st e) e = destroyEff st e) ∧
    (∀ (st : St) (e : Nat),
      ((flush (destroyEff st e)).effs e).runCount = (st.effs e).runCount ∧
      ((flush (destroyEff st e)).effs e).status = .destroyed) := by
  refine ⟨?_, ?_, ?_⟩
  · intro st e h
    exact destroyEff_destroyed h
  · intro st e
    exact destroyEff_destroyed (destroyEff_status st e)
  · intro st e
    have h := flushLoop_destroyed flushGuard (destroyEff st e) e (destroyEff_status st e)
    constructor
    · show ((flushLoop flushGuard (destroyEff st e)).effs e).runCount = (st.effs e).runCount
      rw [h, destroyEff_runCount]
    · show ((flushLoop flushGuard (destroyEff st e)).effs e).status = .destroyed
      rw [h, destroyEff_status]

/-- C5 witness -/
theorem c5_destroy_idempotent_witness :
    let base := runOps (initSt (fun _ => Expr.lit 0) [] (fun _ => 0)) [.createE 0 (.logSig 3)]
    destroyEff (destroyEff base 0) 0 = destroyEff base 0 ∧
    ((flush (destroyEff base 0)).effs 0).runCount = (base.effs 0).runCount ∧
    ((flush (destroyEff base 0)).effs 0).status = .destroyed :=
  ⟨c5_destroy_idempotent.1 _ 0 (by decide),
    c5_destroy_idempotent.2.2 (runOps (initSt (fun _ => Expr.lit 0) [] (fun _ => 0))
      [.createE 0 (.logSig 3)]) 0⟩

/-- C6: an exception in an effect body during a flush is reported to the
process-wide error handler (the error counter increments — not swallowed,
and the run function returns normally rather than rethrowing into the
scheduler), the effect transitions back to idle (not destroyed) with its
dependency on the read signal recorded so a later write re-schedules it, and
no other effect's state nor any computed cache is modified by the failure.
The concrete flush scenario shows a sibling effect still running in the same
flush and the failed effect retrying after a subsequent write. -/
theorem c6_effect_error_isolation :
    (∀ (st : St) (e s : Nat),
      (st.effs e).status = .queued → (st.effs e).body = .throwB s →
      (runEffect st e).errors = st.errors + 1 ∧
      ((runEffect st e).effs e).status = .idle ∧
      ((runEffect st e).effs e).dirty = false ∧
      ((runEffect st e).effs e).deps = [s] ∧
      (∀ j, j ≠ e → (runEffect st e).effs j = st.effs j) ∧
      (runEffect st e).comps = st.comps) ∧
    ((runOps (initSt (fun _ => Expr.lit 0) [] (fun _ => 0))
        [.createE 0 (.throwB 5), .createE 1 (.logSig 5), .flushO]).errors = 1 ∧
      ((runOps (initSt (fun _ => Expr.lit 0) [] (fun _ => 0))
        [.createE 0 (.throwB 5), .createE 1 (.logSig 5), .flushO]).effs 0).status = .idle ∧
      ((runOps (initSt (fun _ => Expr.lit 0) [] (fun _ => 0))
        [.createE 0 (.throwB 5), .createE 1 (.logSig 5), .flushO]).effs 1).runLog = [0] ∧
      (runOps (initSt (fun _ => Expr.lit 0) [] (fun _ => 0))
        [.createE 0 (.throwB 5), .createE 1 (.logSig 5), .flushO,
          .writeS 5 7, .flushO]).errors = 2 ∧
      ((runOps (initSt (fun _ => Expr.lit 0) [] (fun _ => 0))
        [.createE 0 (.throwB 5), .createE 1 (.logSig 5), .flushO,
          .writeS 5 7, .flushO]).effs 0).runCount = 2) := by
  refine ⟨?_, by decide, by decide, by decide, by decide, by decide⟩
  intro st e s hq hbody
  refine ⟨?_, ?_, ?_, ?_, ?_, ?_⟩
  · simp [runEffect, hq, hbody, bodyRun]
  · simp [runEffect, hq]
  · simp [runEffect, hq]
  · simp [runEffect, hq, hbody, bodyRun]
  · intro j hj
    exact runEffect_effs_other st hj
  · exact (runEffect_core st e).2.2.1

/-- C6 witness -/
theorem c6_effect_error_isolation_witness :
    let base := runOps (initSt (fun _ => Expr.lit 0) [] (fun _ => 0)) [.createE 0 (.throwB 5)]
    (runEffect base 0).errors = base.errors + 1 ∧
    ((runEffect base 0).effs 0).status = .idle ∧
    ((runEffect base 0).effs 0).dirty = false ∧
    ((runEffect base 0).effs 0).deps = [5] ∧
    (∀ j, j ≠ 0 → (runEffect base 0).effs j = base.effs j) ∧
    (runEffect base 0).comps = base.comps :=
  c6_effect_error_isolation.1 _ 0 5 (by decide) (by decide)

theorem denoteC_lit (ce : Nat → Expr) (sv : Nat → Int) (i : Nat) (n : Int) :
    denoteC ce sv i (.lit n) = n := by
  rw [denoteC]

theorem denoteC_sig (ce : Nat → Expr) (sv : Nat → Int) (i s : Nat) :
    denoteC ce sv i (.sigE s) = sv s := by
  rw [denoteC]

theorem denoteC_comp (ce : Nat → Expr) (sv : Nat → Int) {i j : Nat} (h : j < i) :
    denoteC ce sv i (.compE j) = denoteAt ce sv j := by
  rw [denoteC, dif_pos h, denoteAt]

theorem denoteC_comp_not (ce : Nat → Expr) (sv : Nat → Int) {i j : Nat} (h : ¬j < i) :
    denoteC ce sv i (.compE j) = 0 := by
  rw [denoteC, dif_neg h]

theorem denoteC_add (ce : Nat → Expr) (sv : Nat → Int) (i : Nat) (a b : Expr) :
    denoteC ce sv i (.add a b) = denoteC ce sv i a + denoteC ce sv i b := by
  rw [denoteC]

theorem denoteC_ifz (ce : Nat → Expr) (sv : Nat → Int) (i : Nat) (c a b : Expr) :
    denoteC ce sv i (.ifz c a b) =
      if denoteC ce sv i c = 0 then denoteC ce sv i a else denoteC ce sv i b := by
  rw [denoteC]

/-- a single recorded dependency is coherent with the current state, where
`f` is the signal assignment at the owning cache's last computation -/
def DepOK (ce : Nat → Expr) (st : St) (f : Nat → Int) (i : Nat) : Prod' × Nat → Prop
  | (.sigP s, v) => v ≤ st.sigVer s ∧ (st.sigVer s = v → st.sigVal s = f s)
  | (.compP j, v) => j < i ∧ ∃ cj, st.comps j = some cj ∧ v ≤ cj.version ∧
      (cj.version = v → cj.value = denoteAt ce f j)

/-- a computed's cache is coherent: its value, recorded producers and
snapshots are those of an evaluation under some past signal assignment `f`,
and each snapshot still determines `f`'s reads whenever it matches the
producer's current version -/
def CacheOK (ce : Nat → Expr) (st : St) (i : Nat) (c : CompCache) : Prop :=
  ∃ f : Nat → Int,
    c.value = denoteAt ce f i ∧
    c.deps.map Prod.fst = pdeps ce f i (ce i) ∧
    ∀ d ∈ c.deps, DepOK ce st f i d

/-- the graph invariant: well-formed computed program, and every existing
cache is coherent -/
def Inv (st : St) : Prop :=
  (∀ i, (st.compExpr i).wfB i = true) ∧
  (∀ i c, st.comps i = some c → CacheOK st.compExpr st i c)

/-- the signal-side state (and the computed program) is untouched -/
def SigEq (st st' : St) : Prop :=
  st'.sigVal = st.sigVal ∧ st'.sigVer = st.sigVer ∧ st'.compExpr = st.compExpr

/-- caches only evolve forward: versions never decrease and an unchanged
version means an unchanged value -/
def CompsEvolve (st st' : St) : Prop :=
  ∀ j cj, st.comps j = some cj → ∃ cj', st'.comps j = some cj' ∧
    cj.version ≤ cj'.version ∧ (cj'.version = cj.version → cj'.value = cj.value)

theorem compsEvolve_refl (st : St) : CompsEvolve st st :=
  fun _ cj h => ⟨cj, h, le_refl _, fun _ => rfl⟩

theorem compsEvolve_trans {a b c : St} (h₁ : CompsEvolve a b) (h₂ : CompsEvolve b c) :
    CompsEvolve a c := by
  intro j cj h
  obtain ⟨c₁, hc₁, hv₁, he₁⟩ := h₁ j cj h
  obtain ⟨c₂, hc₂, hv₂, he₂⟩ := h₂ j c₁ hc₁
  refine ⟨c₂, hc₂, hv₁.trans hv₂, fun hx => ?_⟩
  have hv1e : c₁.version = cj.version := le_antisymm (hx ▸ hv₂) hv₁
  rw [he₂ (hv1e.symm ▸ hx), he₁ hv1e]

theorem sigEq_refl (st : St) : SigEq st st := ⟨rfl, rfl, rfl⟩

theorem sigEq_trans {a b c : St} (h₁ : SigEq a b) (h₂ : SigEq b c) : SigEq a c :=
  ⟨h₂.1.trans h₁.1, h₂.2.1.trans h₁.2.1, h₂.2.2.trans h₁.2.2⟩

theorem DepOK_mono {ce : Nat → Expr} {st st' : St} {f : Nat → Int} {i : Nat}
    {d : Prod' × Nat} (hs : SigEq st st') (he : CompsEvolve st st')
    (h : DepOK ce st f i d) : DepOK ce st' f i d := by
  obtain ⟨p, v⟩ := d
  cases p with
  | sigP s =>
    obtain ⟨h1, h2⟩ := h
    exact ⟨by rw [hs.2.1]; exact h1, fun hx => by
      rw [hs.1]; exact h2 (by rw [← hs.2.1]; exact hx)⟩
  | compP j =>
    obtain ⟨hj, cj, hcj, hv, himp⟩ := h
    obtain ⟨cj', hcj', hv', he'⟩ := he j cj hcj
    refine ⟨hj, cj', hcj', hv.trans hv', fun hx => ?_⟩
    have hve : cj.version = v := le_antisymm (hx ▸ hv') hv
    rw [he' (hve.symm ▸ hx), himp hve]

theorem CacheOK_mono {ce : Nat → Expr} {st st' : St} {i : Nat} {c : CompCache}
    (hs : SigEq st st') (he : CompsEvolve st st')
    (h : CacheOK ce st i c) : CacheOK ce st' i c := by
  obtain ⟨f, h1, h2, h3⟩ := h
  exact ⟨f, h1, h2, fun d hd => DepOK_mono hs he (h3 d hd)⟩

/-- a producer's current reading agrees with its reading under `f` -/
def ProdAgree (ce : Nat → Expr) (sv f : Nat → Int) : Prod' × Nat → Prop
  | (.sigP s, _) => sv s = f s
  | (.compP j, _) => denoteAt ce sv j = denoteAt ce f j

/-- the tracked-dependency agreement lemma: if the current assignment agrees
with the snapshot assignment on every producer recorded under the snapshot,
then evaluation (and the recorded producer set) is unchanged -/
theorem denote_agree (ce : Nat → Expr) (f g : Nat → Int) :
    ∀ (e : Expr) (i : Nat),
      (∀ s, Prod'.sigP s ∈ pdeps ce f i e → g s = f s) →
      (∀ j, Prod'.compP j ∈ pdeps ce f i e → denoteAt ce g j = denoteAt ce f j) →
      denoteC ce g i e = denoteC ce f i e ∧ pdeps ce g i e = pdeps ce f i e := by
  intro e
  induction e with
  | lit n => intro i _ _; exact ⟨by rw [denoteC_lit, denoteC_lit], rfl⟩
  | sigE s =>
    intro i hs _
    refine ⟨?_, rfl⟩
    rw [denoteC_sig, denoteC_sig]
    exact hs s (by simp [pdeps])
  | compE j =>
    intro i _ hc
    refine ⟨?_, rfl⟩
    by_cases h : j < i
    · rw [denoteC_comp ce g h, denoteC_comp ce f h]
      exact hc j (by simp [pdeps])
    · rw [denoteC_comp_not ce g h, denoteC_comp_not ce f h]
  | add a b iha ihb =>
    intro i hs hc
    simp only [pdeps] at hs hc
    obtain ⟨ha1, ha2⟩ := iha i
      (fun s hm => hs s (by rw [List.mem_append]; exact Or.inl hm))
      (fun j hm => hc j (by rw [List.mem_append]; exact Or.inl hm))
    obtain ⟨hb1, hb2⟩ := ihb i
      (fun s hm => hs s (by rw [List.mem_append]; exact Or.inr hm))
      (fun j hm => hc j (by rw [List.mem_append]; exact Or.inr hm))
    constructor
    · rw [denoteC_add, denoteC_add, ha1, hb1]
    · simp only [pdeps]
      rw [ha2, hb2]
  | ifz c a b ihc iha ihb =>
    intro i hs hc
    simp only [pdeps] at hs hc
    obtain ⟨hc1, hc2⟩ := ihc i
      (fun s hm => hs s (by rw [List.mem_append]; exact Or.inl hm))
      (fun j hm => hc j (by rw [List.mem_append]; exact Or.inl hm))
    by_cases hz : denoteC ce f i c = 0
    · obtain ⟨ha1, ha2⟩ := iha i
        (fun s hm => hs s (by rw [List.mem_append, if_pos hz]; exact Or.inr hm))
        (fun j hm => hc j (by rw [List.mem_append, if_pos hz]; exact Or.inr hm))
      constructor
      · rw [denoteC_ifz, denoteC_ifz, hc1, ha1, if_pos hz, if_pos hz]
      · simp only [pdeps]
        rw [hc1, hc2, ha2, if_pos hz, if_pos hz]
    · obtain ⟨hb1, hb2⟩ := ihb i
        (fun s hm => hs s (by rw [List.mem_append, if_neg hz]; exact Or.inr hm))
        (fun j hm => hc j (by rw [List.mem_append, if_neg hz]; exact Or.inr hm))
      constructor
      · rw [denoteC_ifz, denoteC_ifz, hc1, hb1, if_neg hz, if_neg hz]
      · simp only [pdeps]
        rw [hc1, hc2, hb2, if_neg hz, if_neg hz]

/-- everything outside the computed subsystem is untouched by a read -/
def OtherFrame (st st' : St) : Prop :=
  st'.compIds = st.compIds ∧ st'.effIds = st.effIds ∧ st'.effs = st.effs ∧
  st'.reg = st.reg ∧ st'.errors = st.errors ∧ st'.clock = st.clock ∧
  st'.fatalSched = st.fatalSched

theorem otherFrame_refl (st : St) : OtherFrame st st :=
  ⟨rfl, rfl, rfl, rfl, rfl, rfl, rfl⟩

theorem otherFrame_trans {a b c : St} (h₁ : OtherFrame a b) (h₂ : OtherFrame b c) :
    OtherFrame a c :=
  ⟨h₂.1.trans h₁.1, h₂.2.1.trans h₁.2.1, h₂.2.2.1.trans h₁.2.2.1,
    h₂.2.2.2.1.trans h₁.2.2.2.1, h₂.2.2.2.2.1.trans h₁.2.2.2.2.1,
    h₂.2.2.2.2.2.1.trans h₁.2.2.2.2.2.1, h₂.2.2.2.2.2.2.trans h₁.2.2.2.2.2.2⟩

/-- full correctness package for one computed read -/
structure ReadOK (st st' : St) (i : Nat) (v : Int) : Prop where
  val : v = denoteAt st.compExpr st.sigVal i
  inv : Inv st'
  sig : SigEq st st'
  oframe : OtherFrame st st'
  evolve : CompsEvolve st st'
  aboveC : ∀ k, i < k → st'.comps k = st.comps k
  aboveN : ∀ k, i < k → st'.compCount k = st.compCount k
  cache : ∃ c', st'.comps i = some c' ∧ c'.value = v

/-- the induction hypothesis shape of the main fuel induction -/
def ReadIH (fuel : Nat) : Prop :=
  ∀ (st : St) (i : Nat), Inv st → i < fuel →
    ReadOK st (readCF fuel st i).2 i (readCF fuel st i).1

/-- correctness package for one tracked evaluation, against the bound `b`
limiting the computed references of the evaluated expression -/
structure EvalOK (st : St) (e : Expr) (b : Nat) (v : Int) (ds : List (Prod' × Nat))
    (st' : St) : Prop where
  val : v = denoteC st.compExpr st.sigVal b e
  dmap : ds.map Prod.fst = pdeps st.compExpr st.sigVal b e
  dok : ∀ d ∈ ds, DepOK st.compExpr st' st.sigVal b d
  inv : Inv st'
  sig : SigEq st st'
  oframe : OtherFrame st st'
  evolve : CompsEvolve st st'
  aboveC : ∀ k, b ≤ k → st'.comps k = st.comps k
  aboveN : ∀ k, b ≤ k → st'.compCount k = st.compCount k

theorem evalT_ok (fuel : Nat) (IH : ReadIH fuel) :
    ∀ (e : Expr) (st : St) (b : Nat), Inv st → b ≤ fuel → e.wfB b = true →
      EvalOK st e b (evalT (readCF fuel) st e).1 (evalT (readCF fuel) st e).2.1
        (evalT (readCF fuel) st e).2.2 := by
  intro e
  induction e with
  | lit n =>
    intro st b hinv _ _
    exact ⟨(denoteC_lit _ _ _ _).symm, by simp [evalT, pdeps], by simp [evalT],
      hinv, sigEq_refl st, otherFrame_refl st, compsEvolve_refl st,
      fun _ _ => rfl, fun _ _ => rfl⟩
  | sigE s =>
    intro st b hinv _ _
    refine ⟨(denoteC_sig _ _ _ _).symm, by simp [evalT, pdeps], ?_,
      hinv, sigEq_refl st, otherFrame_refl st, compsEvolve_refl st,
      fun _ _ => rfl, fun _ _ => rfl⟩
    intro d hd
    simp only [evalT, List.mem_singleton] at hd
    subst hd
    exact ⟨le_refl _, fun _ => rfl⟩
  | compE j =>
    intro st b hinv hle hwf
    have hj : j < b := by simpa [Expr.wfB] using hwf
    have hjf : j < fuel := lt_of_lt_of_le hj hle
    have R := IH st j hinv hjf
    obtain ⟨c', hc', hcv⟩ := R.cache
    refine ⟨?_, by simp [evalT, pdeps], ?_, R.inv, R.sig, R.oframe, R.evolve,
      fun k hk => R.aboveC k (lt_of_lt_of_le hj hk),
      fun k hk => R.aboveN k (lt_of_lt_of_le hj hk)⟩
    · show (readCF fuel st j).1 = denoteC st.compExpr st.sigVal b (.compE j)
      rw [denoteC_comp _ _ hj]
      exact R.val
    · intro d hd
      simp only [evalT, List.mem_singleton] at hd
      subst hd
      refine ⟨hj, c', hc', ?_, ?_⟩
      · show cver (readCF fuel st j).2 j ≤ c'.version
        unfold cver
        rw [hc']
      · intro hx
        rw [hcv, R.val]
  | add a b' iha ihb =>
    intro st b hinv hle hwf
    have hwa : a.wfB b = true := by
      simp only [Expr.wfB, Bool.and_eq_true] at hwf
      exact hwf.1
    have hwb : b'.wfB b = true := by
      simp only [Expr.wfB, Bool.and_eq_true] at hwf
      exact hwf.2
    have A := iha st b hinv hle hwa
    have B := ihb (evalT (readCF fuel) st a).2.2 b A.inv hle hwb
    have hsg := A.sig
    have heval : evalT (readCF fuel) st (.add a b')
        = ((evalT (readCF fuel) st a).1
            + (evalT (readCF fuel) (evalT (readCF fuel) st a).2.2 b').1,
           (evalT (readCF fuel) st a).2.1
            ++ (evalT (readCF fuel) (evalT (readCF fuel) st a).2.2 b').2.1,
           (evalT (readCF fuel) (evalT (readCF fuel) st a).2.2 b').2.2) := by
      simp [evalT]
    rw [heval]
    refine ⟨?_, ?_, ?_, B.inv, sigEq_trans A.sig B.sig, otherFrame_trans A.oframe B.oframe,
      compsEvolve_trans A.evolve B.evolve, ?_, ?_⟩
    · rw [denoteC_add, A.val]
      have := B.val
      rw [hsg.1, hsg.2.2] at this
      rw [this]
    · rw [List.map_append, A.dmap]
      have := B.dmap
      rw [hsg.1, hsg.2.2] at this
      rw [this]
      simp [pdeps]
    · intro d hd
      rw [List.mem_append] at hd
      rcases hd with hd | hd
      · exact DepOK_mono B.sig B.evolve (A.dok d hd)
      · have := B.dok d hd
        rw [hsg.1, hsg.2.2] at this
        exact this
    · intro k hk
      rw [B.aboveC k hk, A.aboveC k hk]
    · intro k hk
      rw [B.aboveN k hk, A.aboveN k hk]
  | ifz c a b' ihc iha ihb =>
    intro st b hinv hle hwf
    have hwc : c.wfB b = true := by
      simp only [Expr.wfB, Bool.and_eq_true] at hwf
      exact hwf.1.1
    have hwa : a.wfB b = true := by
      simp only [Expr.wfB, Bool.and_eq_true] at hwf
      exact hwf.1.2
    have hwb : b'.wfB b = true := by
      simp only [Expr.wfB, Bool.and_eq_true] at hwf
      exact hwf.2
    have C := ihc st b hinv hle hwc
    have hsg := C.sig
    by_cases hz : (evalT (readCF fuel) st c).1 = 0
    · have hz' : denoteC st.compExpr st.sigVal b c = 0 := by rw [← C.val]; exact hz
      have A := iha (evalT (readCF fuel) st c).2.2 b C.inv hle hwa
      have heval : evalT (readCF fuel) st (.ifz c a b')
          = ((evalT (readCF fuel) (evalT (readCF fuel) st c).2.2 a).1,
             (evalT (readCF fuel) st c).2.1
               ++ (evalT (readCF fuel) (evalT (readCF fuel) st c).2.2 a).2.1,
             (evalT (readCF fuel) (evalT (readCF fuel) st c).2.2 a).2.2) := by
        simp [evalT, hz]
      rw [heval]
      refine ⟨?_, ?_, ?_, A.inv, sigEq_trans C.sig A.sig, otherFrame_trans C.oframe A.oframe,
        compsEvolve_trans C.evolve A.evolve, ?_, ?_⟩
      · show (evalT (readCF fuel) _ a).1 = denoteC st.compExpr st.sigVal b (.ifz c a b')
        rw [denoteC_ifz, if_pos hz']
        have := A.val
        rw [hsg.1, hsg.2.2] at this
        exact this
      · rw [List.map_append, C.dmap]
        have := A.dmap
        rw [hsg.1, hsg.2.2] at this
        rw [this]
        simp [pdeps, hz']
      · intro d hd
        rw [List.mem_append] at hd
        rcases hd with hd | hd
        · exact DepOK_mono A.sig A.evolve (C.dok d hd)
        · have := A.dok d hd
          rw [hsg.1, hsg.2.2] at this
          exact this
      · intro k hk
        rw [A.aboveC k hk, C.aboveC k hk]
      · intro k hk
        rw [A.aboveN k hk, C.aboveN k hk]
    · have hz' : ¬denoteC st.compExpr st.sigVal b c = 0 := by rw [← C.val]; exact hz
      have B := ihb (evalT (readCF fuel) st c).2.2 b C.inv hle hwb
      have heval : evalT (readCF fuel) st (.ifz c a b')
          = ((evalT (readCF fuel) (evalT (readCF fuel) st c).2.2 b').1,
             (evalT (readCF fuel) st c).2.1
               ++ (evalT (readCF fuel) (evalT (readCF fuel) st c).2.2 b').2.1,
             (evalT (readCF fuel) (evalT (readCF fuel) st c).2.2 b').2.2) := by
        simp [evalT, hz]
      rw [heval]
      refine ⟨?_, ?_, ?_, B.inv, sigEq_trans C.sig B.sig, otherFrame_trans C.oframe B.oframe,
        compsEvolve_trans C.evolve B.evolve, ?_, ?_⟩
      · show (evalT (readCF fuel) _ b').1 = denoteC st.compExpr st.sigVal b (.ifz c a b')
        rw [denoteC_ifz, if_neg hz']
        have := B.val
        rw [hsg.1, hsg.2.2] at this
        exact this
      · rw [List.map_append, C.dmap]
        have := B.dmap
        rw [hsg.1, hsg.2.2] at this
        rw [this]
        simp [pdeps, hz']
      · intro d hd
        rw [List.mem_append] at hd
        rcases hd with hd | hd
        · exact DepOK_mono B.sig B.evolve (C.dok d hd)
        · have := B.dok d hd
          rw [hsg.1, hsg.2.2] at this
          exact this
      · intro k hk
        rw [B.aboveC k hk, C.aboveC k hk]
      · intro k hk
        rw [B.aboveN k hk, C.aboveN k hk]

/-- correctness package for polling a dependency list -/
structure PollOK (st : St) (f : Nat → Int) (b : Nat) (ds : List (Prod' × Nat))
    (changed : Bool) (st' : St) : Prop where
  inv : Inv st'
  sig : SigEq st st'
  oframe : OtherFrame st st'
  evolve : CompsEvolve st st'
  aboveC : ∀ k, b ≤ k → st'.comps k = st.comps k
  aboveN : ∀ k, b ≤ k → st'.compCount k = st.compCount k
  agree : changed = false → ∀ d ∈ ds, ProdAgree st.compExpr st.sigVal f d

theorem pollT_ok (fuel : Nat) (IH : ReadIH fuel) :
    ∀ (ds : List (Prod' × Nat)) (st : St) (b : Nat) (f : Nat → Int),
      Inv st → b ≤ fuel →
      (∀ d ∈ ds, DepOK st.compExpr st f b d) →
      PollOK st f b ds (pollT (readCF fuel) st ds).1 (pollT (readCF fuel) st ds).2 := by
  intro ds
  induction ds with
  | nil =>
    intro st b f hinv _ _
    exact ⟨hinv, sigEq_refl st, otherFrame_refl st, compsEvolve_refl st,
      fun _ _ => rfl, fun _ _ => rfl, fun _ d hd => absurd hd (List.not_mem_nil d)⟩
  | cons d₀ rest ih =>
    intro st b f hinv hle hdok
    obtain ⟨p, v⟩ := d₀
    cases p with
    | sigP s =>
      have R := ih st b f hinv hle (fun d hd => hdok d (List.mem_cons_of_mem _ hd))
      have heq : pollT (readCF fuel) st ((Prod'.sigP s, v) :: rest)
          = ((st.sigVer s != v) || (pollT (readCF fuel) st rest).1,
             (pollT (readCF fuel) st rest).2) := by
        simp [pollT]
      rw [heq]
      refine ⟨R.inv, R.sig, R.oframe, R.evolve, R.aboveC, R.aboveN, ?_⟩
      intro hch d hd
      have hor : (st.sigVer s != v) = false ∧ (pollT (readCF fuel) st rest).1 = false := by
        constructor
        · cases hx : (st.sigVer s != v)
          · rfl
          · rw [hx] at hch; simp at hch
        · cases hx : (pollT (readCF fuel) st rest).1
          · rfl
          · rw [hx] at hch; simp at hch
      rcases List.mem_cons.mp hd with hd' | hd'
      · subst hd'
        show st.sigVal s = f s
        have hv : st.sigVer s = v := by
          have := hor.1
          simpa using this
        exact (hdok (Prod'.sigP s, v) (List.mem_cons_self _ _)).2 hv
      · exact R.agree hor.2 d hd'
    | compP j =>
      have hdj := hdok (Prod'.compP j, v) (List.mem_cons_self _ _)
      have hj : j < b := hdj.1
      have hjf : j < fuel := lt_of_lt_of_le hj hle
      have R := IH st j hinv hjf
      have hsg := R.sig
      have hrest : ∀ d ∈ rest, DepOK (readCF fuel st j).2.compExpr (readCF fuel st j).2 f b d := by
        intro d hd
        rw [hsg.2.2]
        exact DepOK_mono R.sig R.evolve (hdok d (List.mem_cons_of_mem _ hd))
      have P := ih (readCF fuel st j).2 b f R.inv hle hrest
      have heq : pollT (readCF fuel) st ((Prod'.compP j, v) :: rest)
          = ((cver (readCF fuel st j).2 j != v)
              || (pollT (readCF fuel) (readCF fuel st j).2 rest).1,
             (pollT (readCF fuel) (readCF fuel st j).2 rest).2) := by
        simp [pollT]
      rw [heq]
      refine ⟨P.inv, sigEq_trans R.sig P.sig, otherFrame_trans R.oframe P.oframe, compsEvolve_trans R.evolve P.evolve,
        ?_, ?_, ?_⟩
      · intro k hk
        rw [P.aboveC k hk, R.aboveC k (lt_of_lt_of_le hj hk)]
      · intro k hk
        rw [P.aboveN k hk, R.aboveN k (lt_of_lt_of_le hj hk)]
      · intro hch d hd
        have hor : (cver (readCF fuel st j).2 j != v) = false ∧
            (pollT (readCF fuel) (readCF fuel st j).2 rest).1 = false := by
          constructor
          · cases hx : (cver (readCF fuel st j).2 j != v)
            · rfl
            · rw [hx] at hch; simp at hch
          · cases hx : (pollT (readCF fuel) (readCF fuel st j).2 rest).1
            · rfl
            · rw [hx] at hch; simp at hch
        rcases List.mem_cons.mp hd with hd' | hd'
        · subst hd'
          show denoteAt st.compExpr st.sigVal j = denoteAt st.compExpr f j
          obtain ⟨c', hc', hcv⟩ := R.cache
          have hver : c'.version = v := by
            have := hor.1
            rw [bne_eq_false_iff_eq] at this
            rw [← this]
            unfold cver
            rw [hc']
          obtain ⟨_, cj, hcj, _, himp⟩ := DepOK_mono R.sig R.evolve hdj
          rw [hc'] at hcj
          have hcc : cj = c' := by
            injection hcj with h
            exact h.symm
          subst hcc
          rw [← R.val, ← hcv]
          exact himp hver
        · have := P.agree hor.2 d hd'
          rw [hsg.1, hsg.2.2] at this
          exact this

theorem recomputeC_ok (fuel : Nat) (IH : ReadIH fuel) (st : St) (i : Nat)
    (hinv : Inv st) (hle : i ≤ fuel) :
    ReadOK st (recomputeC (readCF fuel) st i).2 i (recomputeC (readCF fuel) st i).1 ∧
    (recomputeC (readCF fuel) st i).2.compCount i = st.compCount i + 1 := by
  have E := evalT_ok fuel IH (st.compExpr i) st i hinv hle (hinv.1 i)
  set r := evalT (readCF fuel) st (st.compExpr i) with hrdef
  set ver : Nat := (match r.2.2.comps i with
    | some c => if r.1 = c.value then c.version else c.version + 1
    | none => 1) with hverdef
  have hrec : recomputeC (readCF fuel) st i
      = (r.1, { r.2.2 with
          comps := fun k => if k = i then some ⟨r.1, ver, r.2.1, .clean⟩ else r.2.2.comps k
          compCount := fun k => if k = i then r.2.2.compCount i + 1
            else r.2.2.compCount k }) := rfl
  rw [hrec]
  have hce1 : r.2.2.compExpr = st.compExpr := E.sig.2.2
  have hsig12 : SigEq r.2.2
      ({ r.2.2 with
        comps := fun k => if k = i then some ⟨r.1, ver, r.2.1, .clean⟩ else r.2.2.comps k
        compCount := fun k => if k = i then r.2.2.compCount i + 1
          else r.2.2.compCount k } : St) := ⟨rfl, rfl, rfl⟩
  have hof12 : OtherFrame r.2.2
      ({ r.2.2 with
        comps := fun k => if k = i then some ⟨r.1, ver, r.2.1, .clean⟩ else r.2.2.comps k
        compCount := fun k => if k = i then r.2.2.compCount i + 1
          else r.2.2.compCount k } : St) := ⟨rfl, rfl, rfl, rfl, rfl, rfl, rfl⟩
  have hev12 : CompsEvolve r.2.2
      ({ r.2.2 with
        comps := fun k => if k = i then some ⟨r.1, ver, r.2.1, .clean⟩ else r.2.2.comps k
        compCount := fun k => if k = i then r.2.2.compCount i + 1
          else r.2.2.compCount k } : St) := by
    intro j cj hcj
    by_cases hji : j = i
    · subst hji
      refine ⟨⟨r.1, ver, r.2.1, .clean⟩, by simp, ?_, ?_⟩
      · show cj.version ≤ ver
        rw [hverdef, hcj]
        show cj.version ≤ if r.1 = cj.value then cj.version else cj.version + 1
        by_cases hveq : r.1 = cj.value
        · rw [if_pos hveq]
        · rw [if_neg hveq]
          exact Nat.le_succ _
      · intro hx
        show r.1 = cj.value
        by_cases hveq : r.1 = cj.value
        · exact hveq
        · exfalso
          have hx' : ver = cj.version := hx
          rw [hverdef, hcj] at hx'
          have hx'' : (if r.1 = cj.value then cj.version else cj.version + 1)
              = cj.version := hx'
          rw [if_neg hveq] at hx''
          exact Nat.succ_ne_self _ hx''
    · exact ⟨cj, by simp [hji, hcj], le_refl _, fun _ => rfl⟩
  have hinv2 : Inv ({ r.2.2 with
      comps := fun k => if k = i then some ⟨r.1, ver, r.2.1, .clean⟩ else r.2.2.comps k
      compCount := fun k => if k = i then r.2.2.compCount i + 1
        else r.2.2.compCount k } : St) := by
    constructor
    · intro k
      show (r.2.2.compExpr k).wfB k = true
      rw [hce1]
      exact hinv.1 k
    · intro k ck hck
      show CacheOK r.2.2.compExpr _ k ck
      rw [hce1]
      by_cases hki : k = i
      · subst hki
        have hck' : ck = ⟨r.1, ver, r.2.1, .clean⟩ := by
          have : (some ⟨r.1, ver, r.2.1, .clean⟩ : Option CompCache) = some ck := by
            rw [← hck]; simp
          injection this with h
          exact h.symm
        subst hck'
        refine ⟨st.sigVal, E.val, E.dmap, ?_⟩
        intro d hd
        exact DepOK_mono hsig12 hev12 (E.dok d hd)
      · have hck' : r.2.2.comps k = some ck := by
          have : (if k = i then some (⟨r.1, ver, r.2.1, .clean⟩ : CompCache)
              else r.2.2.comps k) = some ck := hck
          rw [if_neg hki] at this
          exact this
        have P := E.inv.2 k ck hck'
        rw [hce1] at P
        exact CacheOK_mono hsig12 hev12 P
  constructor
  · refine ⟨E.val, hinv2, sigEq_trans E.sig hsig12, otherFrame_trans E.oframe hof12,
      compsEvolve_trans E.evolve hev12, ?_, ?_, ?_⟩
    · intro k hk
      show (if k = i then _ else r.2.2.comps k) = st.comps k
      rw [if_neg (by intro hx; subst hx; exact lt_irrefl _ hk),
        E.aboveC k (le_of_lt hk)]
    · intro k hk
      show (if k = i then _ else r.2.2.compCount k) = st.compCount k
      rw [if_neg (by intro hx; subst hx; exact lt_irrefl _ hk),
        E.aboveN k (le_of_lt hk)]
    · exact ⟨⟨r.1, ver, r.2.1, .clean⟩, by simp, rfl⟩
  · show (if i = i then r.2.2.compCount i + 1 else _) = st.compCount i + 1
    rw [if_pos rfl, E.aboveN i (le_refl i)]

theorem readCF_ok : ∀ (fuel : Nat), ReadIH fuel := by
  intro fuel
  induction fuel with
  | zero =>
    intro st i _ h
    exact absurd h (Nat.not_lt_zero i)
  | succ n ih =>
    intro st i hinv hlt
    have hle : i ≤ n := Nat.lt_succ_iff.mp hlt
    cases hc : st.comps i with
    | none =>
      have heq : readCF (n + 1) st i = recomputeC (readCF n) st i := by
        simp [readCF, hc]
      rw [heq]
      exact (recomputeC_ok n ih st i hinv hle).1
    | some c =>
      by_cases hd : c.flag = .dirty
      · have heq : readCF (n + 1) st i = recomputeC (readCF n) st i := by
          simp [readCF, hc, hd]
        rw [heq]
        exact (recomputeC_ok n ih st i hinv hle).1
      · obtain ⟨f, hval, hdmap, hdok⟩ := hinv.2 i c hc
        have P := pollT_ok n ih c.deps st i f hinv hle hdok
        have hci : (pollT (readCF n) st c.deps).2.comps i = some c := by
          rw [P.aboveC i (le_refl i)]
          exact hc
        cases hb : (pollT (readCF n) st c.deps).1 with
        | true =>
          have heq : readCF (n + 1) st i
              = recomputeC (readCF n) (pollT (readCF n) st c.deps).2 i := by
            simp [readCF, hc, hd, hb]
          rw [heq]
          obtain ⟨R2, _⟩ := recomputeC_ok n ih (pollT (readCF n) st c.deps).2 i P.inv hle
          have hval2 := R2.val
          rw [P.sig.1, P.sig.2.2] at hval2
          refine ⟨hval2, R2.inv, sigEq_trans P.sig R2.sig, otherFrame_trans P.oframe R2.oframe,
            compsEvolve_trans P.evolve R2.evolve, ?_, ?_, R2.cache⟩
          · intro k hk
            rw [R2.aboveC k hk, P.aboveC k (le_of_lt hk)]
          · intro k hk
            rw [R2.aboveN k hk, P.aboveN k (le_of_lt hk)]
        | false =>
          have heq : readCF (n + 1) st i
              = (c.value, { (pollT (readCF n) st c.deps).2 with
                  comps := fun k => if k = i then some { c with flag := .clean }
                    else (pollT (readCF n) st c.deps).2.comps k }) := by
            simp [readCF, hc, hd, hb]
          rw [heq]
          have hsig2 : SigEq (pollT (readCF n) st c.deps).2
              ({ (pollT (readCF n) st c.deps).2 with
                comps := fun k => if k = i then some { c with flag := .clean }
                  else (pollT (readCF n) st c.deps).2.comps k } : St) := ⟨rfl, rfl, rfl⟩
          have hev2 : CompsEvolve (pollT (readCF n) st c.deps).2
              ({ (pollT (readCF n) st c.deps).2 with
                comps := fun k => if k = i then some { c with flag := .clean }
                  else (pollT (readCF n) st c.deps).2.comps k } : St) := by
            intro j cj hcj
            by_cases hji : j = i
            · subst hji
              rw [hci] at hcj
              injection hcj with hcj'
              subst hcj'
              exact ⟨{ c with flag := .clean }, by simp, le_refl _, fun _ => rfl⟩
            · exact ⟨cj, by simp [hji, hcj], le_refl _, fun _ => rfl⟩
          -- the reused cached value is the current denotation, via agreement
          have hagree := P.agree hb
          have hvcur : c.value = denoteAt st.compExpr st.sigVal i := by
            have hA := denote_agree st.compExpr f st.sigVal (st.compExpr i) i
              (fun s hm => by
                rw [← hdmap] at hm
                obtain ⟨⟨p, v⟩, hdm, hp⟩ := List.mem_map.mp hm
                have hp' : p = Prod'.sigP s := hp
                subst hp'
                exact hagree (Prod'.sigP s, v) hdm)
              (fun j hm => by
                rw [← hdmap] at hm
                obtain ⟨⟨p, v⟩, hdm, hp⟩ := List.mem_map.mp hm
                have hp' : p = Prod'.compP j := hp
                subst hp'
                exact hagree (Prod'.compP j, v) hdm)
            rw [hval]
            show denoteAt st.compExpr f i = denoteAt st.compExpr st.sigVal i
            exact (hA.1).symm
          have hinv2 : Inv ({ (pollT (readCF n) st c.deps).2 with
              comps := fun k => if k = i then some { c with flag := .clean }
                else (pollT (readCF n) st c.deps).2.comps k } : St) := by
            have hce2 : (pollT (readCF n) st c.deps).2.compExpr = st.compExpr :=
              P.sig.2.2
            constructor
            · intro k
              show ((pollT (readCF n) st c.deps).2.compExpr k).wfB k = true
              rw [hce2]
              exact hinv.1 k
            · intro k ck hck
              show CacheOK (pollT (readCF n) st c.deps).2.compExpr _ k ck
              rw [hce2]
              by_cases hki : k = i
              · subst hki
                have hck' : ck = { c with flag := .clean } := by
                  have : (if k = k then some ({ c with flag := .clean } : CompCache)
                      else (pollT (readCF n) st c.deps).2.comps k) = some ck := hck
                  rw [if_pos rfl] at this
                  injection this with h
                  exact h.symm
                subst hck'
                refine ⟨f, hval, hdmap, ?_⟩
                intro d hd
                exact DepOK_mono hsig2 hev2
                  (DepOK_mono P.sig P.evolve (hdok d hd))
              · have hck' : (pollT (readCF n) st c.deps).2.comps k = some ck := by
                  have : (if k = i then some ({ c with flag := .clean } : CompCache)
                      else (pollT (readCF n) st c.deps).2.comps k) = some ck := hck
                  rw [if_neg hki] at this
                  exact this
                have Q := P.inv.2 k ck hck'
                rw [hce2] at Q
                exact CacheOK_mono hsig2 hev2 Q
          refine ⟨hvcur, hinv2, sigEq_trans P.sig hsig2, otherFrame_trans P.oframe
            ⟨rfl, rfl, rfl, rfl, rfl, rfl, rfl⟩, compsEvolve_trans P.evolve hev2, ?_, ?_, ?_⟩
          · intro k hk
            show (if k = i then _ else (pollT (readCF n) st c.deps).2.comps k) = st.comps k
            rw [if_neg (by intro hx; subst hx; exact lt_irrefl _ hk),
              P.aboveC k (le_of_lt hk)]
          · intro k hk
            show (pollT (readCF n) st c.deps).2.compCount k = st.compCount k
            exact P.aboveN k (le_of_lt hk)
          · exact ⟨{ c with flag := .clean }, by simp, rfl⟩

theorem DepOK_state_congr {ce : Nat → Expr} {st st' : St} {f : Nat → Int} {i : Nat}
    {d : Prod' × Nat} (h1 : st'.sigVal = st.sigVal) (h2 : st'.sigVer = st.sigVer)
    (h4 : st'.comps = st.comps) (h : DepOK ce st f i d) : DepOK ce st' f i d := by
  obtain ⟨p, v⟩ := d
  cases p with
  | sigP s => exact ⟨by rw [h2]; exact h.1, fun hx => by rw [h1]; exact h.2 (by rw [← h2]; exact hx)⟩
  | compP j =>
    obtain ⟨hj, cj, hcj, hv, himp⟩ := h
    exact ⟨hj, cj, by rw [h4]; exact hcj, hv, himp⟩

theorem CacheOK_state_congr {ce : Nat → Expr} {st st' : St} {i : Nat} {c : CompCache}
    (h1 : st'.sigVal = st.sigVal) (h2 : st'.sigVer = st.sigVer)
    (h4 : st'.comps = st.comps) (h : CacheOK ce st i c) : CacheOK ce st' i c := by
  obtain ⟨f, hv, hm, hd⟩ := h
  exact ⟨f, hv, hm, fun d hdm => DepOK_state_congr h1 h2 h4 (hd d hdm)⟩

theorem Inv_congr (st st' : St) (h1 : st'.sigVal = st.sigVal) (h2 : st'.sigVer = st.sigVer)
    (h3 : st'.compExpr = st.compExpr) (h4 : st'.comps = st.comps) (h : Inv st) : Inv st' := by
  constructor
  · intro i; rw [h3]; exact h.1 i
  · intro i c hc
    rw [h3]
    rw [h4] at hc
    exact CacheOK_state_congr h1 h2 h4 (h.2 i c hc)

/-- relation between caches that differ only in the dirty flag -/
def RelF : Option CompCache → Option CompCache → Prop
  | none, o => o = none
  | some c, o => ∃ c', o = some c' ∧ c'.value = c.value ∧ c'.version = c.version ∧
      c'.deps = c.deps

theorem relF_refl (o : Option CompCache) : RelF o o := by
  cases o with
  | none => exact rfl
  | some c => exact ⟨c, rfl, rfl, rfl, rfl⟩

theorem relF_trans {a b c : Option CompCache} (h₁ : RelF a b) (h₂ : RelF b c) :
    RelF a c := by
  cases a with
  | none =>
    have hb : b = none := h₁
    subst hb
    exact h₂
  | some ca =>
    obtain ⟨cb, hb, e1, e2, e3⟩ := h₁
    subst hb
    obtain ⟨cc, hc, f1, f2, f3⟩ := h₂
    exact ⟨cc, hc, f1.trans e1, f2.trans e2, f3.trans e3⟩

/-- a state change that only raises dirty flags on computeds -/
def FlagsOnly (st st' : St) : Prop :=
  st'.sigVal = st.sigVal ∧ st'.sigVer = st.sigVer ∧ st'.compExpr = st.compExpr ∧
  st'.compCount = st.compCount ∧ ∀ k, RelF (st.comps k) (st'.comps k)

theorem flagsOnly_refl (st : St) : FlagsOnly st st :=
  ⟨rfl, rfl, rfl, rfl, fun k => relF_refl _⟩

theorem flagsOnly_trans {a b c : St} (h₁ : FlagsOnly a b) (h₂ : FlagsOnly b c) :
    FlagsOnly a c :=
  ⟨h₂.1.trans h₁.1, h₂.2.1.trans h₁.2.1, h₂.2.2.1.trans h₁.2.2.1,
    h₂.2.2.2.1.trans h₁.2.2.2.1, fun k => relF_trans (h₁.2.2.2.2 k) (h₂.2.2.2.2 k)⟩

theorem bumpFlag_flagsOnly (st : St) (k : Nat) (f : Flag) :
    FlagsOnly st (bumpFlag st k f) := by
  refine ⟨rfl, rfl, rfl, rfl, fun k' => ?_⟩
  by_cases he : k' = k
  · subst he
    cases hc : st.comps k' with
    | none =>
      have hb : (bumpFlag st k' f).comps k' = none := by simp [bumpFlag, hc]
      rw [hb]
      exact rfl
    | some c =>
      have hb : (bumpFlag st k' f).comps k'
          = some { c with flag := joinFlag c.flag f } := by simp [bumpFlag, hc]
      exact ⟨{ c with flag := joinFlag c.flag f }, hb, rfl, rfl, rfl⟩
  · have hb : (bumpFlag st k f).comps k' = st.comps k' := by simp [bumpFlag, he]
    rw [hb]
    exact relF_refl _

theorem markTrans_flagsOnly : ∀ (fuel : Nat) (st : St) (w vis : List Nat),
    FlagsOnly st (markTrans fuel st w vis) := by
  intro fuel
  induction fuel with
  | zero => intro st w vis; exact flagsOnly_refl st
  | succ n ih =>
    intro st w vis
    match w with
    | [] => exact flagsOnly_refl st
    | k :: rest =>
      show FlagsOnly st (if k ∈ vis then markTrans n st rest vis else _)
      by_cases hk : k ∈ vis
      · rw [if_pos hk]; exact ih st rest vis
      · rw [if_neg hk]
        exact flagsOnly_trans (bumpFlag_flagsOnly st k .maybeDirty) (ih _ _ _)

theorem dirtyFold_flagsOnly : ∀ (l : List Nat) (st : St),
    FlagsOnly st (l.foldl (fun a k => bumpFlag a k .dirty) st) := by
  intro l
  induction l with
  | nil => intro st; exact flagsOnly_refl st
  | cons x xs ih =>
    intro st
    rw [List.foldl_cons]
    exact flagsOnly_trans (bumpFlag_flagsOnly st x .dirty) (ih _)

theorem markFromSignal_flagsOnly (st : St) (s : Nat) :
    FlagsOnly st (markFromSignal st s) := by
  simp only [markFromSignal]
  exact flagsOnly_trans (dirtyFold_flagsOnly _ _) (markTrans_flagsOnly _ _ _ _)

theorem Inv_flagsOnly {st st' : St} (hf : FlagsOnly st st') (h : Inv st) : Inv st' := by
  obtain ⟨h1, h2, h3, _, h5⟩ := hf
  constructor
  · intro i; rw [h3]; exact h.1 i
  · intro i c' hc'
    have hrel := h5 i
    cases hcs : st.comps i with
    | none =>
      rw [hcs] at hrel
      have : st'.comps i = none := hrel
      rw [this] at hc'
      cases hc'
    | some c =>
      rw [hcs] at hrel
      obtain ⟨c'', hc'', e1, e2, e3⟩ := hrel
      rw [hc''] at hc'
      injection hc' with hcc
      subst hcc
      obtain ⟨f, hv, hm, hd⟩ := h.2 i c hcs
      rw [h3]
      refine ⟨f, by rw [e1]; exact hv, by rw [e3]; exact hm, ?_⟩
      intro d hdm
      rw [e3] at hdm
      have hdep := hd d hdm
      obtain ⟨p, v⟩ := d
      cases p with
      | sigP sg =>
        exact ⟨by rw [h2]; exact hdep.1,
          fun hx => by rw [h1]; exact hdep.2 (by rw [← h2]; exact hx)⟩
      | compP j =>
        obtain ⟨hj, cj, hcj, hvv, himp⟩ := hdep
        have hrelj := h5 j
        rw [hcj] at hrelj
        obtain ⟨cj', hcj', f1, f2, f3⟩ := hrelj
        exact ⟨hj, cj', hcj', by rw [f2]; exact hvv,
          fun hx => by rw [f1]; exact himp (by rw [← f2]; exact hx)⟩

/-- the signal-update stage of a write preserves the invariant: the bumped
version voids the old snapshots' implications -/
theorem Inv_sigbump (st : St) (s : Nat) (v : Int) (h : Inv st) :
    Inv ({ st with
      sigVal := fun s' => if s' = s then v else st.sigVal s'
      sigVer := fun s' => if s' = s then st.sigVer s' + 1 else st.sigVer s'
      clock := st.clock + 1 } : St) := by
  constructor
  · intro i; exact h.1 i
  · intro i c hc
    obtain ⟨f, hv, hm, hd⟩ := h.2 i c hc
    refine ⟨f, hv, hm, ?_⟩
    intro d hdm
    have hdep := hd d hdm
    obtain ⟨p, vv⟩ := d
    cases p with
    | sigP sg =>
      obtain ⟨hle, himp⟩ := hdep
      by_cases he : sg = s
      · subst he
        constructor
        · show vv ≤ if sg = sg then st.sigVer sg + 1 else st.sigVer sg
          rw [if_pos rfl]
          exact hle.trans (Nat.le_succ _)
        · intro hx
          exfalso
          have hx' : (if sg = sg then st.sigVer sg + 1 else st.sigVer sg) = vv := hx
          rw [if_pos rfl] at hx'
          rw [← hx'] at hle
          exact Nat.not_succ_le_self _ hle
      · constructor
        · show vv ≤ if sg = s then st.sigVer sg + 1 else st.sigVer sg
          rw [if_neg he]
          exact hle
        · intro hx
          have hx' : (if sg = s then st.sigVer sg + 1 else st.sigVer sg) = vv := hx
          rw [if_neg he] at hx'
          show (if sg = s then v else st.sigVal sg) = f sg
          rw [if_neg he]
          exact himp hx'
    | compP j => exact hdep

theorem Inv_write (st : St) (s : Nat) (v : Int) (h : Inv st) : Inv (write st s v) := by
  by_cases hch : v = st.sigVal s
  · rw [write_noop hch]; exact h
  · simp only [write, if_neg hch, notifyEffects]
    have h₁ := Inv_sigbump st s v h
    have h₂ := Inv_flagsOnly (markFromSignal_flagsOnly _ s) h₁
    refine Inv_congr _ _ ?_ ?_ ?_ ?_ h₂
    · exact (notifyFold_core s _ _).1
    · exact (notifyFold_core s _ _).2.1
    · exact (notifyFold_core s _ _).2.2.2.2.1
    · exact (notifyFold_core s _ _).2.2.1

theorem Inv_runEffect (st : St) (e : Nat) (h : Inv st) : Inv (runEffect st e) := by
  obtain ⟨h1, h2, h3, _, h5, _⟩ := runEffect_core st e
  exact Inv_congr _ _ h1 h2 h5 h3 h

theorem Inv_foldRun : ∀ (l : List Nat) (st : St), Inv st → Inv (l.foldl runEffect st) := by
  intro l
  induction l with
  | nil => intro st h; exact h
  | cons x xs ih =>
    intro st h
    rw [List.foldl_cons]
    exact ih _ (Inv_runEffect st x h)

theorem Inv_flushLoop : ∀ (n : Nat) (st : St), Inv st → Inv (flushLoop n st) := by
  intro n
  induction n with
  | zero =>
    intro st h
    exact Inv_congr _ _ rfl rfl rfl rfl h
  | succ m ih =>
    intro st h
    show Inv (if anyQueued st = true then flushLoop m (runPass st) else st)
    by_cases hq : anyQueued st = true
    · rw [if_pos hq]
      exact ih _ (Inv_foldRun st.effIds st h)
    · rw [if_neg hq]
      exact h

theorem Inv_createEffect (st : St) (e : Nat) (b : EffBody) (h : Inv st) :
    Inv (createEffect st e b) := by
  unfold createEffect
  obtain ⟨s1, s2, s3, _, s5, _⟩ := scheduleEffect_core _ e
  exact Inv_congr _ _ s1 s2 s5 s3 (Inv_congr _ _ rfl rfl rfl rfl h)

theorem Inv_destroyEff (st : St) (e : Nat) (h : Inv st) : Inv (destroyEff st e) := by
  by_cases hd : (st.effs e).status = .destroyed
  · rw [destroyEff_destroyed hd]; exact h
  · simp only [destroyEff, hd, if_neg, if_false]
    exact Inv_congr _ _ rfl rfl rfl rfl h

theorem Inv_runOps : ∀ (ops : List Op) (st : St), Inv st → Inv (runOps st ops) := by
  intro ops
  induction ops with
  | nil => intro st h; exact h
  | cons op rest ih =>
    intro st h
    show Inv (runOps _ rest)
    refine ih _ ?_
    cases op with
    | writeS s v => exact Inv_write st s v h
    | readC i => exact ((readCF_ok (i + 1)) st i h (Nat.lt_succ_self i)).inv
    | flushO => exact Inv_flushLoop flushGuard st h
    | createE e b => exact Inv_createEffect st e b h
    | destroyE e => exact Inv_destroyEff st e h

theorem Inv_initSt (ce : Nat → Expr) (cids : List Nat) (sv : Nat → Int)
    (hwf : ∀ n, (ce n).wfB n = true) : Inv (initSt ce cids sv) := by
  constructor
  · intro i; exact hwf i
  · intro i c hc
    cases hc

theorem write_compExpr (st : St) (s : Nat) (v : Int) :
    (write st s v).compExpr = st.compExpr := by
  by_cases hch : v = st.sigVal s
  · rw [write_noop hch]
  · simp only [write, if_neg hch, notifyEffects]
    rw [(notifyFold_core s _ _).2.2.2.2.1, (markFromSignal_flagsOnly _ s).2.2.1]

theorem foldRun_compExpr : ∀ (l : List Nat) (st : St),
    (l.foldl runEffect st).compExpr = st.compExpr := by
  intro l
  induction l with
  | nil => intro st; rfl
  | cons x xs ih =>
    intro st
    rw [List.foldl_cons, ih, (runEffect_core st x).2.2.2.2.1]

theorem flushLoop_compExpr : ∀ (n : Nat) (st : St),
    (flushLoop n st).compExpr = st.compExpr := by
  intro n
  induction n with
  | zero => intro st; rfl
  | succ m ih =>
    intro st
    show (if anyQueued st = true then flushLoop m (runPass st) else st).compExpr = st.compExpr
    by_cases hq : anyQueued st = true
    · rw [if_pos hq, ih]
      exact foldRun_compExpr st.effIds st
    · rw [if_neg hq]

theorem createEffect_compExpr (st : St) (e : Nat) (b : EffBody) :
    (createEffect st e b).compExpr = st.compExpr := by
  unfold createEffect
  rw [(scheduleEffect_core _ e).2.2.2.2.1]

theorem destroyEff_compExpr (st : St) (e : Nat) :
    (destroyEff st e).compExpr = st.compExpr := by
  by_cases hd : (st.effs e).status = .destroyed
  · rw [destroyEff_destroyed hd]
  · simp only [destroyEff, hd, if_false]

theorem runOps_compExpr : ∀ (ops : List Op) (st : St), Inv st →
    (runOps st ops).compExpr = st.compExpr := by
  intro ops
  induction ops with
  | nil => intro st _; rfl
  | cons op rest ih =>
    intro st h
    cases op with
    | writeS s v =>
      show (runOps (write st s v) rest).compExpr = st.compExpr
      rw [ih _ (Inv_write st s v h), write_compExpr]
    | readC i =>
      show (runOps (cread st i).2 rest).compExpr = st.compExpr
      rw [ih (cread st i).2 (((readCF_ok (i + 1)) st i h (Nat.lt_succ_self i)).inv)]
      exact ((readCF_ok (i + 1)) st i h (Nat.lt_succ_self i)).sig.2.2
    | flushO =>
      show (runOps (flush st) rest).compExpr = st.compExpr
      rw [ih (flush st) (Inv_flushLoop flushGuard st h)]
      exact flushLoop_compExpr flushGuard st
    | createE e b =>
      show (runOps (createEffect st e b) rest).compExpr = st.compExpr
      rw [ih _ (Inv_createEffect st e b h), createEffect_compExpr]
    | destroyE e =>
      show (runOps (destroyEff st e) rest).compExpr = st.compExpr
      rw [ih _ (Inv_destroyEff st e h), destroyEff_compExpr]

/-- C1: lazy computed re-validation is correct.  Over any client operation
sequence from an initial state of a well-formed computed program, (a)
reading any computed returns exactly the specification-level denotation of
its expression under the current signal values — the value is consistent
with the latest values of all transitive dependencies at read time — and
(b) the cached value is reused (the computed's recompute counter does not
move) if and only if the computed is not directly marked dirty and polling
its recorded producer dependencies (refreshing producer computeds on the
way, exactly as the read itself does) finds no version differing from the
snapshot taken at its last read. -/
theorem c1_computed_consistency (ce : Nat → Expr) (cids : List Nat) (sv0 : Nat → Int)
    (ops : List Op) (i : Nat) (hwf : ∀ n, (ce n).wfB n = true) :
    (cread (runOps (initSt ce cids sv0) ops) i).1
      = denoteAt ce (runOps (initSt ce cids sv0) ops).sigVal i ∧
    (∀ c, (runOps (initSt ce cids sv0) ops).comps i = some c →
      ((cread (runOps (initSt ce cids sv0) ops) i).2.compCount i
          = (runOps (initSt ce cids sv0) ops).compCount i
        ↔ (¬c.flag = .dirty ∧
            (pollT (readCF i) (runOps (initSt ce cids sv0) ops) c.deps).1 = false))) := by
  have hinv : Inv (runOps (initSt ce cids sv0) ops) :=
    Inv_runOps ops _ (Inv_initSt ce cids sv0 hwf)
  have hce : (runOps (initSt ce cids sv0) ops).compExpr = ce :=
    runOps_compExpr ops _ (Inv_initSt ce cids sv0 hwf)
  set st := runOps (initSt ce cids sv0) ops with hst
  constructor
  · have R := (readCF_ok (i + 1)) st i hinv (Nat.lt_succ_self i)
    have := R.val
    rw [hce] at this
    exact this
  · intro c hc
    by_cases hd : c.flag = .dirty
    · have heq : cread st i = recomputeC (readCF i) st i := by
        simp [cread, readCF, hc, hd]
      have hcount := (recomputeC_ok i (readCF_ok i) st i hinv (le_refl i)).2
      rw [heq]
      constructor
      · intro hx
        rw [hcount] at hx
        exact absurd hx (Nat.succ_ne_self _)
      · intro hx
        exact absurd hd hx.1
    · obtain ⟨f, hval, hdmap, hdok⟩ := hinv.2 i c hc
      rw [hce] at hval hdmap hdok
      have P := pollT_ok i (readCF_ok i) c.deps st i f hinv (le_refl i)
        (by rw [hce]; exact hdok)
      cases hb : (pollT (readCF i) st c.deps).1 with
      | true =>
        have heq : cread st i = recomputeC (readCF i) (pollT (readCF i) st c.deps).2 i := by
          simp [cread, readCF, hc, hd, hb]
        have hcount := (recomputeC_ok i (readCF_ok i)
          (pollT (readCF i) st c.deps).2 i P.inv (le_refl i)).2
        rw [heq]
        constructor
        · intro hx
          rw [hcount, P.aboveN i (le_refl i)] at hx
          exact absurd hx (Nat.succ_ne_self _)
        · intro hx
          cases hx.2
      | false =>
        have heq : cread st i
            = (c.value, { (pollT (readCF i) st c.deps).2 with
                comps := fun k => if k = i then some { c with flag := .clean }
                  else (pollT (readCF i) st c.deps).2.comps k }) := by
          simp [cread, readCF, hc, hd, hb]
        rw [heq]
        constructor
        · intro _
          exact ⟨hd, rfl⟩
        · intro _
          show (pollT (readCF i) st c.deps).2.compCount i = st.compCount i
          exact P.aboveN i (le_refl i)

/-- C1 witness -/
theorem c1_computed_consistency_witness :
    (cread (runOps (initSt (fun _ => Expr.sigE 0) [0] (fun _ => 0))
        [.writeS 0 5, .readC 0]) 0).1
      = denoteAt (fun _ => Expr.sigE 0)
          (runOps (initSt (fun _ => Expr.sigE 0) [0] (fun _ => 0))
            [.writeS 0 5, .readC 0]).sigVal 0 ∧
    (∀ c, (runOps (initSt (fun _ => Expr.sigE 0) [0] (fun _ => 0))
        [.writeS 0 5, .readC 0]).comps 0 = some c →
      ((cread (runOps (initSt (fun _ => Expr.sigE 0) [0] (fun _ => 0))
            [.writeS 0 5, .readC 0]) 0).2.compCount 0
          = (runOps (initSt (fun _ => Expr.sigE 0) [0] (fun _ => 0))
              [.writeS 0 5, .readC 0]).compCount 0
        ↔ (¬c.flag = .dirty ∧
            (pollT (readCF 0) (runOps (initSt (fun _ => Expr.sigE 0) [0] (fun _ => 0))
              [.writeS 0 5, .readC 0]) c.deps).1 = false))) :=
  c1_computed_consistency (fun _ => Expr.sigE 0) [0] (fun _ => 0)
    [.writeS 0 5, .readC 0] 0 (fun _ => rfl)

end AngularReactivity
